import Mathlib

/-!
A verification development for a Rust BitTorrent client
(codecrafters-bittorrent-rust).  The Rust sources are shallowly embedded:
bytes are natural numbers (values < 256 where byte-ness matters), machine
integers are `Nat`/`Int` with explicit range checks where the Rust code
would overflow-panic, fallible code (Rust panics and `Result` errors)
returns `Option`, and I/O-bearing operations are modelled as pure functions
of the bytes they read and write.
-/

/-! ## Bencode data model (src/decoder.rs)

`BencodedValue` mirrors the Rust enum of the same name.  The `Dict` case
holds a `BTreeMap<BencodedString, BencodedValue>`, which we model as a
key-sorted association structure `BVDict`; `BVList` mirrors
`Vec<BencodedValue>`.  Byte strings (`BencodedString`) are `List Nat`. -/

mutual

inductive BencodedValue : Type where
  | String : List Nat → BencodedValue
  | Integer : Int → BencodedValue
  | List : BVList → BencodedValue
  | Dict : BVDict → BencodedValue

inductive BVList : Type where
  | nil : BVList
  | cons : BencodedValue → BVList → BVList

inductive BVDict : Type where
  | nil : BVDict
  | cons : List Nat → BencodedValue → BVDict → BVDict

end

/-- Lexicographic byte comparison on byte strings: the `Ord` instance that
Rust derives for `BencodedString(pub Vec<u8>)` and that `BTreeMap` uses to
order its keys. -/
def lexLt : List Nat → List Nat → Bool
  | [], [] => false
  | [], _ :: _ => true
  | _ :: _, [] => false
  | a :: al, b :: bl => if a < b then true else if b < a then false else lexLt al bl

/-- `BTreeMap::insert`: place the binding at its sorted position; an equal
key has its value replaced. -/
def btreeInsert (k : List Nat) (v : BencodedValue) : BVDict → BVDict
  | .nil => .cons k v .nil
  | .cons k2 v2 tl =>
    if lexLt k k2 then .cons k v (.cons k2 v2 tl)
    else if k = k2 then .cons k2 v tl
    else .cons k2 v2 (btreeInsert k v tl)

/-- Building a `BTreeMap` by inserting a sequence of parsed key/value pairs
in order, as the loop in `decode_bencoded_dict` does. -/
def dictFromPairsAux : BVDict → BVDict → BVDict
  | acc, .nil => acc
  | acc, .cons k v tl => dictFromPairsAux (btreeInsert k v acc) tl

def dictFromPairs (prs : BVDict) : BVDict := dictFromPairsAux .nil prs

/-- Digit extraction with enough fuel; `n + 1` always suffices since the
value strictly decreases below the fuel at every step. -/
def natDecimalAux : Nat → Nat → List Nat
  | 0, _ => []
  | fuel + 1, n =>
    if n < 10 then [48 + n]
    else natDecimalAux fuel (n / 10) ++ [48 + n % 10]

/-- ASCII decimal digits of `n`, most significant first: the bytes of
Rust's `n.to_string()` for unsigned values. -/
def natDecimal (n : Nat) : List Nat := natDecimalAux (n + 1) n

/-- ASCII bytes of Rust's `i.to_string()` for an `i64` value. -/
def intDecimal (i : Int) : List Nat :=
  if i < 0 then 45 :: natDecimal i.natAbs else natDecimal i.natAbs

/-- The bencoding of a byte string: `<ascii length>:<bytes>`. -/
def encodeString (s : List Nat) : List Nat :=
  natDecimal s.length ++ 58 :: s

/-! `Bencodeable::bencode` for `BencodedValue` (decoder.rs lines 144-180). -/

mutual

def bencode : BencodedValue → List Nat
  | .String s => encodeString s
  | .Integer i => 105 :: (intDecimal i ++ [101])
  | .List l => 108 :: (bencodeList l ++ [101])
  | .Dict d => 100 :: (bencodeDict d ++ [101])

def bencodeList : BVList → List Nat
  | .nil => []
  | .cons v tl => bencode v ++ bencodeList tl

def bencodeDict : BVDict → List Nat
  | .nil => []
  | .cons k v tl => encodeString k ++ (bencode v ++ bencodeDict tl)

end

/-! ## Bencode decoding (src/decoder.rs)

Rust signals malformed input by panicking (`unwrap`, `panic!`, slice
index out of range, arithmetic overflow in a debug build); every such
abort is modelled as `none`. -/

/-- `iter().position(|&c| c == b':')`. -/
def findColon : List Nat → Option Nat
  | [] => none
  | c :: rest => if c = 58 then some 0 else (findColon rest).map (· + 1)

/-- Digit-by-digit accumulation of `str::parse::<usize>`, failing on a
non-digit byte or on exceeding `usize::MAX`. -/
def parseDigitsU : List Nat → Nat → Option Nat
  | [], acc => some acc
  | c :: cs, acc =>
    if 48 ≤ c ∧ c ≤ 57 then
      if acc * 10 + (c - 48) < 2 ^ 64 then parseDigitsU cs (acc * 10 + (c - 48)) else none
    else none

/-- `str::parse::<usize>`: rejects the empty string, accepts an optional
leading `+`, then decimal digits. -/
def parseUsize (s : List Nat) : Option Nat :=
  match s with
  | [] => none
  | c :: rest =>
    if c = 43 then (if rest = [] then none else parseDigitsU rest 0)
    else parseDigitsU (c :: rest) 0

/-- `decode_bencoded_string` (decoder.rs lines 184-214): find the colon,
parse the length, take that many bytes.  A missing colon, an unparsable
length, or a length overrunning the input is a panic, hence `none`. -/
def decode_bencoded_string (s : List Nat) : Option (Nat × BencodedValue) := do
  let ci ← findColon s
  let length ← parseUsize (s.take ci)
  if ci + 1 + length ≤ s.length then
    some (ci + 1 + length, BencodedValue.String ((s.drop (ci + 1)).take length))
  else none

/-- The character loop of `decode_bencoded_integer`: walk the bytes after
the leading `i`, breaking on `e`; a `-` anywhere sets the sign, a digit is
accumulated into a signed 64-bit value (overflow aborts), any other byte
panics.  Returns (ending index, accumulated magnitude, sign). -/
def decodeIntLoop : List Nat → Nat → Int → Int → Option (Nat × Int × Int)
  | [], ending, number, mult => some (ending, number, mult)
  | c :: cs, ending, number, mult =>
    if c = 101 then some (ending, number, mult)
    else if c = 45 then decodeIntLoop cs (ending + 1) number (-1)
    else if 48 ≤ c ∧ c ≤ 57 then
      if number * 10 + ((c : Int) - 48) ≤ 2 ^ 63 - 1 then
        decodeIntLoop cs (ending + 1) (number * 10 + ((c : Int) - 48)) mult
      else none
    else none

/-- `decode_bencoded_integer` (decoder.rs lines 218-239). -/
def decode_bencoded_integer (s : List Nat) : Option (Nat × BencodedValue) :=
  match s with
  | [] => none
  | _ :: rest =>
    (decodeIntLoop rest 2 0 1).map fun r => (r.1, BencodedValue.Integer (r.2.1 * r.2.2))

/-! The mutually recursive decoders for values, list elements, and
dictionary pairs, with an explicit fuel parameter standing in for Rust's
call stack.  The `≤ length` guards mirror the slice advances
`&encoded_value[child_index..]`, which panic when the child reports having
consumed more bytes than remain. -/

mutual

def decodeValue : Nat → List Nat → Option (Nat × BencodedValue)
  | 0, _ => none
  | fuel + 1, s =>
    match s with
    | [] => none
    | c :: rest =>
      if 48 ≤ c ∧ c ≤ 57 then decode_bencoded_string s
      else if c = 105 then decode_bencoded_integer s
      else if c = 108 then
        (decodeItems fuel rest).map fun r => (1 + r.1, BencodedValue.List r.2)
      else if c = 100 then
        (decodeDictPairs fuel rest).map fun r => (1 + r.1, BencodedValue.Dict (dictFromPairs r.2))
      else none

def decodeItems : Nat → List Nat → Option (Nat × BVList)
  | 0, _ => none
  | fuel + 1, s =>
    match s with
    | [] => none
    | c :: _ =>
      if c = 101 then some (1, BVList.nil)
      else do
        let (ci, v) ← decodeValue fuel s
        if ci ≤ s.length then do
          let (ri, vs) ← decodeItems fuel (s.drop ci)
          some (ci + ri, BVList.cons v vs)
        else none

def decodeDictPairs : Nat → List Nat → Option (Nat × BVDict)
  | 0, _ => none
  | fuel + 1, s =>
    match s with
    | [] => none
    | c :: _ =>
      if c = 101 then some (1, BVDict.nil)
      else do
        let (ki, kv) ← decode_bencoded_string s
        if ki ≤ s.length then do
          let (vi, v) ← decodeValue fuel (s.drop ki)
          if vi ≤ (s.drop ki).length then do
            let (ri, prs) ← decodeDictPairs fuel ((s.drop ki).drop vi)
            match kv with
            | BencodedValue.String k => some (ki + vi + ri, BVDict.cons k v prs)
            | _ => none
          else none
        else none

end

/-- `decode_bencoded_value` (decoder.rs lines 298-310).  The fuel
`2 * length + 2` dominates the recursion depth of the Rust functions on
any input (each nesting level consumes a byte, each element consumes at
least one byte), so this equals the Rust decoder wherever it returns. -/
def decode_bencoded_value (s : List Nat) : Option (Nat × BencodedValue) :=
  decodeValue (2 * s.length + 2) s

/-- `decode_bencoded_list` as a standalone entry point. -/
def decode_bencoded_list (s : List Nat) : Option (Nat × BencodedValue) :=
  match s with
  | [] => none
  | _ :: rest => (decodeItems (2 * s.length + 2) rest).map fun r => (1 + r.1, BencodedValue.List r.2)

/-- `decode_bencoded_dict` (decoder.rs lines 270-296) as a standalone
entry point: parse key/value pairs and insert them in order into a
`BTreeMap`. -/
def decode_bencoded_dict (s : List Nat) : Option (Nat × BencodedValue) :=
  match s with
  | [] => none
  | _ :: rest =>
    (decodeDictPairs (2 * s.length + 2) rest).map fun r =>
      (1 + r.1, BencodedValue.Dict (dictFromPairs r.2))

/-! ## Well-formedness

The values the Rust program can actually hold: byte-string lengths fit in
`usize`, integers fit in the range the decoder's checked accumulation can
produce (`|i| ≤ 2^63 - 1`), and dictionaries satisfy the `BTreeMap`
invariant of strictly ascending keys. -/

/-- Every key of the dictionary is strictly above `k`. -/
def keysAbove (k : List Nat) : BVDict → Bool
  | .nil => true
  | .cons k2 _ tl => lexLt k k2 && keysAbove k tl

mutual

def wfBV : BencodedValue → Bool
  | .String s => decide (s.length < 2 ^ 64)
  | .Integer i => decide (i.natAbs ≤ 2 ^ 63 - 1)
  | .List l => wfBVList l
  | .Dict d => wfBVDict d

def wfBVList : BVList → Bool
  | .nil => true
  | .cons v tl => wfBV v && wfBVList tl

def wfBVDict : BVDict → Bool
  | .nil => true
  | .cons k v tl => decide (k.length < 2 ^ 64) && wfBV v && keysAbove k tl && wfBVDict tl

end

/-- A canonical bencoded byte sequence: the canonical encoding of some
representable value. -/
def CanonicalBytes (B : List Nat) : Prop :=
  ∃ v : BencodedValue, wfBV v = true ∧ bencode v = B

/-! ## Peer messages (src/network.rs)

`PeerMessage` mirrors the Rust enum.  `u32` fields are `Nat`s that the
well-formedness predicate bounds by `2^32`; the `Piece` block, a Rust
`[u8; 16 * 1024]`, is a list whose well-formedness fixes its length. -/

def CHUNK_SIZE : Int := 16 * 1024

/-- `PEER_ID.as_bytes()` for the fixed id `-TR2940-2b3b6b4b5b6b`. -/
def PEER_ID : List Nat :=
  [45, 84, 82, 50, 57, 52, 48, 45, 50, 98, 51, 98, 54, 98, 52, 98, 53, 98, 54, 98]

inductive PeerMessage : Type where
  | Choke : PeerMessage
  | Unchoke : PeerMessage
  | Interested : PeerMessage
  | NotInterested : PeerMessage
  | Have : PeerMessage
  | Bitfield : List Nat → PeerMessage
  | Request : Nat → Nat → Nat → PeerMessage
  | Piece : Nat → Nat → List Nat → PeerMessage
  | Cancel : Nat → Nat → Nat → PeerMessage
deriving DecidableEq

/-- `u32::to_be_bytes` (the argument is a `u32`, i.e. below `2^32`). -/
def u32be (n : Nat) : List Nat :=
  [n / 2 ^ 24 % 256, n / 2 ^ 16 % 256, n / 2 ^ 8 % 256, n % 256]

/-- `u32::from_be_bytes` of a 4-byte slice. -/
def fromBe32 (b : List Nat) : Nat :=
  match b with
  | [b0, b1, b2, b3] => b0 * 2 ^ 24 + b1 * 2 ^ 16 + b2 * 2 ^ 8 + b3
  | _ => 0

/-- `impl From<&PeerMessage> for Vec<u8>` (network.rs lines 293-365): the
frame each variant writes.  Note that the `Have` arm writes prefix 5 and
no payload, and the `Request`/`Cancel` arms write their `length` *field*
as the 4-byte frame prefix. -/
def encodePeerMessage : PeerMessage → List Nat
  | .Choke => u32be 1 ++ [0]
  | .Unchoke => u32be 1 ++ [1]
  | .Interested => u32be 1 ++ [2]
  | .NotInterested => u32be 1 ++ [3]
  | .Have => u32be 5 ++ [4]
  | .Bitfield payload => u32be (payload.length + 1) ++ 5 :: payload
  | .Request index begin_ length => u32be length ++ 6 :: (u32be index ++ u32be begin_)
      ++ u32be length
  | .Piece index begin_ block => u32be (9 + block.length) ++ 7 :: (u32be index ++ u32be begin_)
      ++ block
  | .Cancel index begin_ length => u32be length ++ 8 :: (u32be index ++ u32be begin_)
      ++ u32be length

/-- `impl From<Vec<u8>> for PeerMessage` (network.rs lines 259-291).
Dispatch on `value[4]`; every out-of-bounds index, failing `try_into`, or
the `panic!` on an unknown id is `none`. -/
def decodePeerMessage (value : List Nat) : Option PeerMessage :=
  match value.get? 4 with
  | none => none
  | some c =>
    if c = 0 then some .Choke
    else if c = 1 then some .Unchoke
    else if c = 2 then some .Interested
    else if c = 3 then some .NotInterested
    else if c = 4 then some .Have
    else if c = 5 then some (.Bitfield (value.drop 5))
    else if c = 6 then
      -- value[5..9], value[9..13] need length ≥ 13; value[13..].try_into
      -- needs the tail to be exactly 4 bytes.
      if value.length = 17 then
        some (.Request (fromBe32 ((value.drop 5).take 4)) (fromBe32 ((value.drop 9).take 4))
          (fromBe32 (value.drop 13)))
      else none
    else if c = 7 then
      -- block[..value.len() - 13].copy_from_slice(&value[13..]) requires
      -- 13 ≤ len and len - 13 ≤ 16384, then zero-pads the 16 KiB array.
      if 13 ≤ value.length ∧ value.length - 13 ≤ 16384 then
        some (.Piece (fromBe32 ((value.drop 5).take 4)) (fromBe32 ((value.drop 9).take 4))
          (value.drop 13 ++ List.replicate (16384 - (value.length - 13)) 0))
      else none
    else if c = 8 then
      if 17 ≤ value.length then
        some (.Cancel (fromBe32 ((value.drop 5).take 4)) (fromBe32 ((value.drop 9).take 4))
          (fromBe32 ((value.drop 13).take 4)))
      else none
    else none

/-- Fields that fit the Rust types: `u32` values below `2^32`, bitfield
payload bytes, and a 16 KiB piece block. -/
def wfPeerMessage : PeerMessage → Prop
  | .Bitfield payload => payload.length + 1 < 2 ^ 32
  | .Request index begin_ length => index < 2 ^ 32 ∧ begin_ < 2 ^ 32 ∧ length < 2 ^ 32
  | .Piece index begin_ block => index < 2 ^ 32 ∧ begin_ < 2 ^ 32 ∧ block.length = 16384
  | .Cancel index begin_ length => index < 2 ^ 32 ∧ begin_ < 2 ^ 32 ∧ length < 2 ^ 32
  | _ => True

/-! ## Peer session (src/network.rs)

The byte stream read from the peer is modelled as the list of bytes that
the socket will deliver; a read consumes a prefix and returns the rest.
The session state mirrors the Rust `PeerState` enum. -/

inductive PeerState : Type where
  | Init : PeerState
  | Handshake : PeerState
  | Bitfield : PeerState
  | Interested : PeerState
  | Unchoke : PeerState
deriving DecidableEq

/-- `PeerStream::read` (network.rs lines 445-471): read a 4-byte length
prefix, one id byte, then `length - 1` payload bytes, and decode the
reassembled frame.  For a keep-alive (`length = 0`) the payload size
`length as usize - 1` underflows: a debug build panics and a release
build asks `read_exact` for `usize::MAX` bytes, which fails; both are
`none`.  A short stream makes `read_exact` fail, also `none`. -/
def readMessage (state : PeerState) (s : List Nat) :
    Option (PeerMessage × List Nat) := do
  if state = PeerState.Init then none
  else
    if 4 ≤ s.length then
      let lengthPre := s.take 4
      let length := fromBe32 lengthPre
      let afterLen := s.drop 4
      if 1 ≤ afterLen.length then
        let messageType := afterLen.take 1
        let afterId := afterLen.drop 1
        if 1 ≤ length ∧ length - 1 ≤ afterId.length then
          let payload := afterId.take (length - 1)
          let msg ← decodePeerMessage (lengthPre ++ messageType ++ payload)
          some (msg, afterId.drop (length - 1))
        else none
      else none
    else none

/-- `PeerStream::read_unchoke` (network.rs lines 519-535): require the
`Interested` state, read one framed message, succeed only on `Unchoke`. -/
def read_unchoke (state : PeerState) (s : List Nat) :
    Option (PeerMessage × List Nat × PeerState) := do
  if state = PeerState.Interested then
    let (m, rest) ← readMessage state s
    match m with
    | PeerMessage.Unchoke => some (m, rest, PeerState.Unchoke)
    | _ => none
  else none

/-- The request frames constructed by `PeerStream::download_piece`
(network.rs lines 537-579): `n_reqs = (piece_length / CHUNK_SIZE) as
usize` (Rust `i64` division truncates toward zero, and the cast wraps
modulo `2^64`), and request `i` has `begin = i * CHUNK_SIZE` and
`length = CHUNK_SIZE`, both cast to `u32`. -/
def download_piece_requests (piece_id : Nat) (piece_length : Int) : List PeerMessage :=
  let n_reqs := ((Int.tdiv piece_length CHUNK_SIZE).emod (2 ^ 64)).toNat
  (List.range n_reqs).map fun i =>
    PeerMessage.Request piece_id (i * CHUNK_SIZE.toNat % 2 ^ 32) (CHUNK_SIZE.toNat % 2 ^ 32)

/-- The reassembly fold of the `download_piece` subcommand (main.rs lines
195-220): concatenate the `block` of each `Piece` response; any other
message panics. -/
def assemblePayload (downloads : List PeerMessage) : Option (List Nat) :=
  downloads.foldl
    (fun acc download =>
      match acc, download with
      | some buf, PeerMessage.Piece _ _ block => some (buf ++ block)
      | _, _ => none)
    (some [])

/-! ## Peer handshake (src/network.rs lines 129-188, 431-443) -/

structure PeerHandshake : Type where
  length : Nat
  protocol : List Nat
  reserved : List Nat
  info_hash : List Nat
  peer_id : List Nat
deriving DecidableEq

/-- The UTF-8 bytes of `"BitTorrent protocol"`. -/
def protocolBytes : List Nat :=
  [66, 105, 116, 84, 111, 114, 114, 101, 110, 116, 32, 112, 114, 111, 116, 111, 99, 111, 108]

/-- `PeerHandshake::new` with the default length, protocol and reserved
bytes. -/
def PeerHandshake.new (info_hash peer_id : List Nat) : PeerHandshake :=
  { length := 19, protocol := protocolBytes, reserved := List.replicate 8 0,
    info_hash := info_hash, peer_id := peer_id }

/-- `impl From<PeerHandshake> for Vec<u8>`: length byte (cast to `u8`),
protocol, reserved, info-hash, peer-id. -/
def handshakeToBytes (h : PeerHandshake) : List Nat :=
  (h.length % 256) :: (h.protocol ++ (h.reserved ++ (h.info_hash ++ h.peer_id)))

/-- Is a byte sequence valid UTF-8?  (The check `String::from_utf8`
performs.) -/
def validUtf8 : List Nat → Bool
  | [] => true
  | c :: rest =>
    if c < 128 then validUtf8 rest
    else if 194 ≤ c ∧ c ≤ 223 then
      match rest with
      | c1 :: r => 128 ≤ c1 && c1 ≤ 191 && validUtf8 r
      | _ => false
    else if 224 ≤ c ∧ c ≤ 239 then
      match rest with
      | c1 :: c2 :: r =>
        (if c = 224 then 160 ≤ c1 && c1 ≤ 191
         else if c = 237 then 128 ≤ c1 && c1 ≤ 159
         else 128 ≤ c1 && c1 ≤ 191) &&
        (128 ≤ c2 && c2 ≤ 191) && validUtf8 r
      | _ => false
    else if 240 ≤ c ∧ c ≤ 244 then
      match rest with
      | c1 :: c2 :: c3 :: r =>
        (if c = 240 then 144 ≤ c1 && c1 ≤ 191
         else if c = 244 then 128 ≤ c1 && c1 ≤ 143
         else 128 ≤ c1 && c1 ≤ 191) &&
        (128 ≤ c2 && c2 ≤ 191) && (128 ≤ c3 && c3 ≤ 191) && validUtf8 r
      | _ => false
    else false

/-- `impl From<Vec<u8>> for PeerHandshake` (network.rs lines 178-188):
purely positional parsing of the 68-byte reply.  Indexing past the end or
invalid UTF-8 in bytes 1..20 panics (`none`); NOTHING is verified — not
the length byte, not the protocol string, not the info-hash. -/
def handshakeFromBytes (value : List Nat) : Option PeerHandshake :=
  if 68 ≤ value.length then
    let proto := (value.drop 1).take 19
    if validUtf8 proto then
      some { length := value.headI, protocol := proto,
             reserved := (value.drop 20).take 8,
             info_hash := (value.drop 28).take 20,
             peer_id := (value.drop 48).take 20 }
    else none
  else none

/-- `PeerStream::handshake` (network.rs lines 431-443) as a function of
the info-hash it is given and of the 68-byte buffer that the single
`read` call fills (the buffer is zero-initialised, so a short read leaves
trailing zeros): returns the bytes written to the socket and the parsed
reply. -/
def handshakeStep (info_hash : List Nat) (reply : List Nat) :
    List Nat × Option PeerHandshake :=
  (handshakeToBytes (PeerHandshake.new info_hash PEER_ID), handshakeFromBytes reply)

/-! ## Metainfo (src/file.rs)

`MetainfoFile::read_from_file` decodes the whole `.torrent`, converts the
`BencodedValue` to a `serde_json::Value`, and deserializes that JSON value
into the `MetainfoFile`/`Info` structs.  We model the JSON value space as
produced by this pipeline: strings, integer numbers, arrays and objects
(a `serde_json::Map` is a `BTreeMap<String, Value>`, kept sorted by the
byte-lexicographic order of the key strings). -/

/-- The UTF-8 bytes of U+FFFD REPLACEMENT CHARACTER. -/
def replacementChar : List Nat := [239, 191, 189]

/-- `String::from_utf8_lossy` on a byte sequence, producing the UTF-8
bytes of the resulting string: well-formed scalar sequences are copied
verbatim, each maximal invalid subpart is replaced by U+FFFD (skipping
1, 2 or 3 bytes following Rust's `Utf8Error::error_len`), and an
incomplete sequence at the end becomes a single U+FFFD. -/
def lossyUtf8 : List Nat → List Nat
  | [] => []
  | c :: rest =>
    if c < 128 then c :: lossyUtf8 rest
    else if 194 ≤ c ∧ c ≤ 223 then
      match rest with
      | [] => replacementChar
      | c1 :: r =>
        if 128 ≤ c1 ∧ c1 ≤ 191 then c :: c1 :: lossyUtf8 r
        else replacementChar ++ lossyUtf8 (c1 :: r)
    else if 224 ≤ c ∧ c ≤ 239 then
      match rest with
      | [] => replacementChar
      | c1 :: r =>
        if (if c = 224 then 160 ≤ c1 ∧ c1 ≤ 191
            else if c = 237 then 128 ≤ c1 ∧ c1 ≤ 159
            else 128 ≤ c1 ∧ c1 ≤ 191) then
          match r with
          | [] => replacementChar
          | c2 :: r2 =>
            if 128 ≤ c2 ∧ c2 ≤ 191 then c :: c1 :: c2 :: lossyUtf8 r2
            else replacementChar ++ lossyUtf8 (c2 :: r2)
        else replacementChar ++ lossyUtf8 (c1 :: r)
    else if 240 ≤ c ∧ c ≤ 244 then
      match rest with
      | [] => replacementChar
      | c1 :: r =>
        if (if c = 240 then 144 ≤ c1 ∧ c1 ≤ 191
            else if c = 244 then 128 ≤ c1 ∧ c1 ≤ 143
            else 128 ≤ c1 ∧ c1 ≤ 191) then
          match r with
          | [] => replacementChar
          | c2 :: r2 =>
            if 128 ≤ c2 ∧ c2 ≤ 191 then
              match r2 with
              | [] => replacementChar
              | c3 :: r3 =>
                if 128 ≤ c3 ∧ c3 ≤ 191 then c :: c1 :: c2 :: c3 :: lossyUtf8 r3
                else replacementChar ++ lossyUtf8 (c3 :: r3)
            else replacementChar ++ lossyUtf8 (c2 :: r2)
        else replacementChar ++ lossyUtf8 (c1 :: r)
    else replacementChar ++ lossyUtf8 rest
termination_by s => s.length
decreasing_by all_goals simp [List.length_cons] <;> omega

/-- `u8::is_ascii` over the whole byte string (`Vec::is_ascii`). -/
def isAsciiBytes (s : List Nat) : Bool := s.all (· < 128)

/-- The `serde_json::Value` shapes produced by this program. -/
inductive Json : Type where
  | str : List Nat → Json
  | num : Int → Json
  | arr : List Json → Json
  | obj : List (List Nat × Json) → Json

/-- `serde_json::Map` (a `BTreeMap<String, Value>`) insertion, ordered by
byte-lexicographic comparison of the UTF-8 keys. -/
def jsonInsert (k : List Nat) (v : Json) : List (List Nat × Json) → List (List Nat × Json)
  | [] => [(k, v)]
  | (k2, v2) :: tl =>
    if lexLt k k2 then (k, v) :: (k2, v2) :: tl
    else if k = k2 then (k2, v) :: tl
    else (k2, v2) :: jsonInsert k v tl

def jsonInsertAll (prs : List (List Nat × Json)) : List (List Nat × Json) :=
  prs.foldl (fun m kv => jsonInsert kv.1 kv.2 m) []

/-! `impl From<BencodedValue> for serde_json::Value` together with
`impl From<&BencodedString> for serde_json::Value` (decoder.rs lines
54-113): ASCII byte-strings become JSON strings via
`String::from_utf8_lossy`, non-ASCII ones become arrays of byte values;
dictionary keys always pass through `String::from_utf8_lossy`. -/

mutual

def bencodedToJson : BencodedValue → Json
  | .String s =>
    if isAsciiBytes s then .str (lossyUtf8 s)
    else .arr (s.map fun b : Nat => Json.num (b : Int))
  | .Integer i => .num i
  | .List l => .arr (bencodedToJsonList l)
  | .Dict d => .obj (jsonInsertAll (bencodedToJsonDict d))

def bencodedToJsonList : BVList → List Json
  | .nil => []
  | .cons v tl => bencodedToJson v :: bencodedToJsonList tl

def bencodedToJsonDict : BVDict → List (List Nat × Json)
  | .nil => []
  | .cons k v tl => (lossyUtf8 k, bencodedToJson v) :: bencodedToJsonDict tl

end

/-- `serde_json::Map::get`. -/
def jsonLookup (kvs : List (List Nat × Json)) (k : List Nat) : Option Json :=
  match kvs with
  | [] => none
  | (k2, v) :: tl => if k2 = k then some v else jsonLookup tl k

/-- The `Info` struct of src/file.rs (a Rust `String` is carried as its
UTF-8 bytes). -/
structure Info : Type where
  length : Int
  name : List Nat
  piece_length : Int
  pieces : List Nat
deriving DecidableEq

structure MetainfoFile : Type where
  announce : List Nat
  info : Info
deriving DecidableEq

/-- serde deserialization of an `i64` field from a JSON value. -/
def jsonToI64 : Json → Option Int
  | .num i => if -(2 ^ 63) ≤ i ∧ i ≤ 2 ^ 63 - 1 then some i else none
  | _ => none

/-- serde deserialization of a `String` field from a JSON value. -/
def jsonToString : Json → Option (List Nat)
  | .str s => some s
  | _ => none

/-- serde deserialization of the elements of a `Vec<u8>`: every element
must be a number in `0..=255`. -/
def jsonNumsToBytes : List Json → Option (List Nat)
  | [] => some []
  | .num b :: tl =>
    if 0 ≤ b ∧ b ≤ 255 then (jsonNumsToBytes tl).map fun bs => b.toNat :: bs else none
  | _ :: _ => none

/-- serde deserialization of a `Vec<u8>` field: only a JSON sequence is
accepted (a JSON string is an `invalid type` error). -/
def jsonToBytes : Json → Option (List Nat)
  | .arr xs => jsonNumsToBytes xs
  | _ => none

def lengthKey : List Nat := [108, 101, 110, 103, 116, 104]
def nameKey : List Nat := [110, 97, 109, 101]
def pieceLengthKey : List Nat := [112, 105, 101, 99, 101, 32, 108, 101, 110, 103, 116, 104]
def piecesKey : List Nat := [112, 105, 101, 99, 101, 115]
def announceKey : List Nat := [97, 110, 110, 111, 117, 110, 99, 101]
def infoKey : List Nat := [105, 110, 102, 111]

/-- `serde_json::from_value::<Info>`: find the fields `length`, `name`,
`piece length` (renamed) and `pieces`; unknown keys are ignored (serde's
default), a missing or mistyped field is an error. -/
def infoFromJson (j : Json) : Option Info :=
  match j with
  | .obj kvs => do
    let l ← jsonToI64 (← jsonLookup kvs lengthKey)
    let nm ← jsonToString (← jsonLookup kvs nameKey)
    let pl ← jsonToI64 (← jsonLookup kvs pieceLengthKey)
    let pc ← jsonToBytes (← jsonLookup kvs piecesKey)
    some { length := l, name := nm, piece_length := pl, pieces := pc }
  | _ => none

/-- `serde_json::from_value::<MetainfoFile>`. -/
def metainfoFromJson (j : Json) : Option MetainfoFile :=
  match j with
  | .obj kvs => do
    let a ← jsonToString (← jsonLookup kvs announceKey)
    let i ← infoFromJson (← jsonLookup kvs infoKey)
    some { announce := a, info := i }
  | _ => none

/-- `MetainfoFile::read_from_file` (file.rs lines 100-116) as a function
of the file's bytes: bencode-decode, convert to JSON, deserialize. -/
def read_from_file (contents : List Nat) : Option MetainfoFile := do
  let (_, v) ← decode_bencoded_value contents
  metainfoFromJson (bencodedToJson v)

/-- The `BTreeMap` that `Info::info_hash` (file.rs lines 49-75) builds
from the four known fields, constructed by insertion exactly as
`BTreeMap::from` does. -/
def infoToBencodedDict (inf : Info) : BVDict :=
  dictFromPairs
    (BVDict.cons lengthKey (BencodedValue.Integer inf.length)
      (BVDict.cons nameKey (BencodedValue.String inf.name)
        (BVDict.cons pieceLengthKey (BencodedValue.Integer inf.piece_length)
          (BVDict.cons piecesKey (BencodedValue.String inf.pieces) BVDict.nil))))

/-- `Info::info_hash`, parametric in the SHA-1 function: hash the
canonical bencoding of the rebuilt four-key info dictionary. -/
def info_hash (sha1 : List Nat → List Nat) (inf : Info) : List Nat :=
  sha1 (bencode (BencodedValue.Dict (infoToBencodedDict inf)))

/-- The canonical `.torrent` bytes for an announce URL and a four-key
info dictionary: the bencoding of `{"announce": announce, "info": info}`. -/
def torrentBytes (announce : List Nat) (inf : Info) : List Nat :=
  bencode (BencodedValue.Dict
    (BVDict.cons announceKey (BencodedValue.String announce)
      (BVDict.cons infoKey (BencodedValue.Dict (infoToBencodedDict inf)) BVDict.nil)))

/-! ## Auxiliary definitions used by the proofs -/

/-- Append two dictionary association structures. -/
def appendD : BVDict → BVDict → BVDict
  | .nil, d => d
  | .cons k v tl, d => .cons k v (appendD tl d)

/-- The keys of a dictionary, in order. -/
def keysD : BVDict → List (List Nat)
  | .nil => []
  | .cons k _ tl => k :: keysD tl

/-- The key sequence is strictly ascending. -/
def sortedKeysD : BVDict → Bool
  | .nil => true
  | .cons k _ tl => keysAbove k tl && sortedKeysD tl

/-! A size measure dominating the fuel the decoders consume on the
encoding of a value. -/

mutual

def sizeB : BencodedValue → Nat
  | .String _ => 1
  | .Integer _ => 1
  | .List l => 1 + sizeL l
  | .Dict d => 1 + sizeD d

def sizeL : BVList → Nat
  | .nil => 1
  | .cons v tl => 1 + max (sizeB v) (sizeL tl)

def sizeD : BVDict → Nat
  | .nil => 1
  | .cons _ v tl => 1 + max (sizeB v) (sizeD tl)

end

/-! # Theorems

## Lexicographic comparison and sorted insertion -/

theorem lexLt_irrefl (a : List Nat) : lexLt a a = false := by
  induction a with
  | nil => rfl
  | cons x xs ih => simp [lexLt, ih]

theorem lexLt_asymm : ∀ {a b : List Nat}, lexLt a b = true → lexLt b a = false := by
  intro a
  induction a with
  | nil =>
    intro b h
    cases b with
    | nil => simp [lexLt] at h
    | cons y ys => simp [lexLt]
  | cons x xs ih =>
    intro b h
    cases b with
    | nil => simp [lexLt] at h
    | cons y ys =>
      simp only [lexLt] at h ⊢
      rcases Nat.lt_trichotomy x y with hxy | hxy | hxy
      · simp [hxy, Nat.lt_asymm hxy]
      · subst hxy
        simp only [Nat.lt_irrefl, if_false] at h ⊢
        exact ih h
      · simp [hxy, Nat.lt_asymm hxy] at h

theorem lexLt_ne {a b : List Nat} (h : lexLt a b = true) : a ≠ b := by
  intro heq
  subst heq
  rw [lexLt_irrefl] at h
  exact Bool.false_ne_true h

theorem lexLt_total : ∀ {a b : List Nat}, lexLt a b = false → a ≠ b → lexLt b a = true := by
  intro a
  induction a with
  | nil =>
    intro b h hne
    cases b with
    | nil => exact absurd rfl hne
    | cons y ys => simp [lexLt] at h
  | cons x xs ih =>
    intro b h hne
    cases b with
    | nil => simp [lexLt]
    | cons y ys =>
      simp only [lexLt] at h ⊢
      rcases Nat.lt_trichotomy x y with hxy | hxy | hxy
      · simp [hxy] at h
      · subst hxy
        simp only [Nat.lt_irrefl, if_false] at h ⊢
        refine ih h ?_
        intro heq
        exact hne (by rw [heq])
      · simp [hxy]

theorem lexLt_trans : ∀ {a b c : List Nat},
    lexLt a b = true → lexLt b c = true → lexLt a c = true := by
  intro a
  induction a with
  | nil =>
    intro b c hab hbc
    cases b with
    | nil => simp [lexLt] at hab
    | cons y ys =>
      cases c with
      | nil => simp [lexLt] at hbc
      | cons z zs => simp [lexLt]
  | cons x xs ih =>
    intro b c hab hbc
    cases b with
    | nil => simp [lexLt] at hab
    | cons y ys =>
      cases c with
      | nil => simp [lexLt] at hbc
      | cons z zs =>
        simp only [lexLt] at hab hbc ⊢
        rcases Nat.lt_trichotomy x y with hxy | hxy | hxy
        · rcases Nat.lt_trichotomy y z with hyz | hyz | hyz
          · simp [Nat.lt_trans hxy hyz]
          · subst hyz; simp [hxy]
          · simp [hyz, Nat.lt_asymm hyz] at hbc
        · subst hxy
          rcases Nat.lt_trichotomy x z with hxz | hxz | hxz
          · simp [hxz]
          · subst hxz
            simp only [Nat.lt_irrefl, if_false] at hab hbc ⊢
            exact ih hab hbc
          · simp [hxz, Nat.lt_asymm hxz] at hbc
        · simp [hxy, Nat.lt_asymm hxy] at hab

theorem keysAbove_iff (k : List Nat) :
    ∀ d : BVDict, (keysAbove k d = true ↔ ∀ a ∈ keysD d, lexLt k a = true)
  | .nil => by simp [keysAbove, keysD]
  | .cons k2 v tl => by
    simp [keysAbove, keysD, keysAbove_iff k tl, Bool.and_eq_true]

theorem appendD_nil : ∀ d : BVDict, appendD d BVDict.nil = d
  | .nil => rfl
  | .cons k v tl => by simp [appendD, appendD_nil tl]

theorem appendD_assoc : ∀ a : BVDict, ∀ b c : BVDict,
    appendD (appendD a b) c = appendD a (appendD b c)
  | .nil, _, _ => rfl
  | .cons k v tl, b, c => by simp [appendD, appendD_assoc tl b c]

theorem keysD_appendD : ∀ a b : BVDict, keysD (appendD a b) = keysD a ++ keysD b
  | .nil, b => by simp [appendD, keysD]
  | .cons k v tl, b => by simp [appendD, keysD, keysD_appendD tl b]

/-- Inserting a key above everything in a sorted map appends at the end. -/
theorem btreeInsert_atEnd (k : List Nat) (v : BencodedValue) :
    ∀ acc : BVDict, (∀ a ∈ keysD acc, lexLt a k = true) →
    btreeInsert k v acc = appendD acc (BVDict.cons k v BVDict.nil)
  | .nil, _ => rfl
  | .cons k2 v2 tl, h => by
    have hk2 : lexLt k2 k = true := h k2 (by simp [keysD])
    have h1 : lexLt k k2 = false := lexLt_asymm hk2
    have h2 : k ≠ k2 := fun heq => lexLt_ne hk2 heq.symm
    simp only [btreeInsert]
    rw [if_neg (by simp [h1]), if_neg h2]
    simp only [appendD]
    exact congrArg (BVDict.cons k2 v2)
      (btreeInsert_atEnd k v tl fun a ha => h a (by simp [keysD, ha]))

theorem dictFromPairsAux_sorted :
    ∀ prs acc : BVDict, sortedKeysD prs = true →
    (∀ a ∈ keysD acc, ∀ b ∈ keysD prs, lexLt a b = true) →
    dictFromPairsAux acc prs = appendD acc prs
  | .nil, acc, _, _ => by rw [dictFromPairsAux, appendD_nil]
  | .cons k v tl, acc, hsorted, hbelow => by
    have hsk : keysAbove k tl = true ∧ sortedKeysD tl = true := by
      simpa [sortedKeysD, Bool.and_eq_true] using hsorted
    have hbelow2 : ∀ a ∈ keysD (appendD acc (BVDict.cons k v BVDict.nil)),
        ∀ b ∈ keysD tl, lexLt a b = true := by
      intro a ha b hb
      rw [keysD_appendD] at ha
      rcases List.mem_append.mp ha with ha | ha
      · exact hbelow a ha b (by simp [keysD, hb])
      · have haeq : a = k := by simpa [keysD] using ha
        subst haeq
        exact (keysAbove_iff a tl).mp hsk.1 b hb
    rw [dictFromPairsAux]
    rw [btreeInsert_atEnd k v acc fun a ha => hbelow a ha k (by simp [keysD])]
    rw [dictFromPairsAux_sorted tl (appendD acc (BVDict.cons k v BVDict.nil)) hsk.2 hbelow2]
    rw [appendD_assoc]
    rfl

/-- `wfBVDict` includes strictly ascending keys. -/
theorem wfBVDict_sortedKeys : ∀ d : BVDict, wfBVDict d = true → sortedKeysD d = true
  | .nil, _ => rfl
  | .cons k v tl, h => by
    simp only [wfBVDict, Bool.and_eq_true] at h
    simp [sortedKeysD, Bool.and_eq_true, h.1.2, wfBVDict_sortedKeys tl h.2]

/-- Re-inserting the pairs of a sorted dictionary reproduces it: on a
canonical (strictly ascending) pair sequence the decoder's `BTreeMap`
equals the parse order. -/
theorem dictFromPairs_sorted (d : BVDict) (h : sortedKeysD d = true) :
    dictFromPairs d = d := by
  rw [dictFromPairs, dictFromPairsAux_sorted d BVDict.nil h (by simp [keysD])]
  rfl

/-! ## Decimal digits -/

theorem natDecimalAux_congr (n : Nat) : ∀ f1 f2 : Nat, n < f1 → n < f2 →
    natDecimalAux f1 n = natDecimalAux f2 n := by
  induction n using Nat.strong_induction_on with
  | _ n ih =>
    intro f1 f2 h1 h2
    have hd : 10 ≤ n → n / 10 < n := fun h => Nat.div_lt_self (by omega) (by omega)
    match f1, h1 with
    | fa + 1, _ =>
      match f2, h2 with
      | fb + 1, _ =>
        simp only [natDecimalAux]
        by_cases h10 : n < 10
        · simp [h10]
        · rw [if_neg h10, if_neg h10,
            ih (n / 10) (hd (by omega)) fa fb (by have := hd (by omega); omega)
              (by have := hd (by omega); omega)]

/-- The recursion equation for `natDecimal`. -/
theorem natDecimal_eq (n : Nat) :
    natDecimal n = if n < 10 then [48 + n] else natDecimal (n / 10) ++ [48 + n % 10] := by
  have hd : 10 ≤ n → n / 10 < n := fun h => Nat.div_lt_self (by omega) (by omega)
  rw [natDecimal, natDecimal, natDecimalAux]
  by_cases h10 : n < 10
  · simp [h10]
  · rw [if_neg h10, if_neg h10,
      natDecimalAux_congr (n / 10) n (n / 10 + 1) (by have := hd (by omega); omega) (by omega)]

theorem natDecimal_digits (n : Nat) : ∀ c ∈ natDecimal n, 48 ≤ c ∧ c ≤ 57 := by
  induction n using Nat.strong_induction_on with
  | _ n ih =>
    intro c hc
    rw [natDecimal_eq] at hc
    by_cases h10 : n < 10
    · rw [if_pos h10] at hc
      simp only [List.mem_singleton] at hc
      omega
    · rw [if_neg h10] at hc
      rcases List.mem_append.mp hc with hc | hc
      · exact ih (n / 10) (Nat.div_lt_self (by omega) (by omega)) c hc
      · simp only [List.mem_singleton] at hc
        have : n % 10 < 10 := Nat.mod_lt n (by omega)
        omega

theorem natDecimal_ne_nil (n : Nat) : natDecimal n ≠ [] := by
  rw [natDecimal_eq]
  by_cases h10 : n < 10
  · simp [h10]
  · simp [h10]

theorem natDecimal_length_pos (n : Nat) : 1 ≤ (natDecimal n).length := by
  have := natDecimal_ne_nil n
  cases h : natDecimal n with
  | nil => exact absurd h this
  | cons a l => simp

/-! ## Length parsing (`parse::<usize>`) -/

theorem parseDigitsU_append (xs ys : List Nat) : ∀ acc : Nat,
    parseDigitsU (xs ++ ys) acc = (parseDigitsU xs acc).bind fun a => parseDigitsU ys a := by
  induction xs with
  | nil => intro acc; simp [parseDigitsU]
  | cons c cs ih =>
    intro acc
    simp only [List.cons_append, parseDigitsU]
    by_cases h1 : 48 ≤ c ∧ c ≤ 57
    · rw [if_pos h1, if_pos h1]
      by_cases h2 : acc * 10 + (c - 48) < 2 ^ 64
      · rw [if_pos h2, if_pos h2]
        exact ih (acc * 10 + (c - 48))
      · rw [if_neg h2, if_neg h2]; rfl
    · rw [if_neg h1, if_neg h1]; rfl

theorem parseDigitsU_natDecimal (n : Nat) : ∀ acc : Nat,
    acc * 10 ^ (natDecimal n).length + n < 2 ^ 64 →
    parseDigitsU (natDecimal n) acc = some (acc * 10 ^ (natDecimal n).length + n) := by
  induction n using Nat.strong_induction_on with
  | _ n ih =>
    intro acc hbound
    rw [natDecimal_eq] at hbound ⊢
    by_cases h10 : n < 10
    · rw [if_pos h10] at hbound ⊢
      simp only [List.length_singleton, pow_one] at hbound ⊢
      simp only [parseDigitsU]
      rw [if_pos (by omega), if_pos (by omega : acc * 10 + (48 + n - 48) < 2 ^ 64)]
      congr 1
      omega
    · rw [if_neg h10] at hbound ⊢
      have hmod := Nat.div_add_mod n 10
      have hd10 : n / 10 < n := Nat.div_lt_self (by omega) (by omega)
      have hlen : (natDecimal (n / 10) ++ [48 + n % 10]).length
          = (natDecimal (n / 10)).length + 1 := by simp
      rw [hlen, pow_succ, ← mul_assoc] at hbound ⊢
      have hb2 : acc * 10 ^ (natDecimal (n / 10)).length + n / 10 < 2 ^ 64 := by omega
      rw [parseDigitsU_append, ih (n / 10) hd10 acc hb2, Option.some_bind]
      simp only [parseDigitsU]
      have hdig : 48 ≤ 48 + n % 10 ∧ 48 + n % 10 ≤ 57 := by
        have : n % 10 < 10 := Nat.mod_lt n (by omega)
        omega
      rw [if_pos hdig, if_pos (by omega)]
      congr 1
      omega

theorem parseUsize_natDecimal (n : Nat) (h : n < 2 ^ 64) :
    parseUsize (natDecimal n) = some n := by
  obtain ⟨c, cs, hcons⟩ : ∃ c cs, natDecimal n = c :: cs := by
    cases hnd : natDecimal n with
    | nil => exact absurd hnd (natDecimal_ne_nil n)
    | cons a l => exact ⟨a, l, rfl⟩
  have hdig := natDecimal_digits n c (by rw [hcons]; simp)
  have hparse := parseDigitsU_natDecimal n 0 (by simpa using h)
  rw [hcons] at hparse ⊢
  rw [parseUsize, if_neg (by omega : ¬c = 43)]
  simpa using hparse

/-! ## Decoding an encoded byte string -/

theorem findColon_append (xs tail : List Nat) (h : ∀ c ∈ xs, c ≠ 58) :
    findColon (xs ++ 58 :: tail) = some xs.length := by
  induction xs with
  | nil => simp [findColon]
  | cons c cs ih =>
    have hc : c ≠ 58 := h c (by simp)
    simp only [List.cons_append, findColon, if_neg hc, List.append_eq]
    rw [ih fun a ha => h a (by simp [ha])]
    simp

theorem decode_string_encode (s rest : List Nat) (h : s.length < 2 ^ 64) :
    decode_bencoded_string (encodeString s ++ rest)
      = some ((encodeString s).length, BencodedValue.String s) := by
  have hsplit : encodeString s ++ rest = natDecimal s.length ++ 58 :: (s ++ rest) := by
    simp [encodeString]
  have hcolon : findColon (encodeString s ++ rest) = some (natDecimal s.length).length := by
    rw [hsplit]
    exact findColon_append _ _ fun c hc => by
      have := natDecimal_digits s.length c hc
      omega
  have htake : (encodeString s ++ rest).take (natDecimal s.length).length
      = natDecimal s.length := by
    rw [hsplit]
    exact List.take_left _ _
  have hlen2 : (encodeString s ++ rest).length
      = (natDecimal s.length).length + 1 + s.length + rest.length := by
    simp [encodeString]
    omega
  have hdrop : (encodeString s ++ rest).drop ((natDecimal s.length).length + 1)
      = s ++ rest := by
    have : encodeString s ++ rest = (natDecimal s.length ++ [58]) ++ (s ++ rest) := by
      simp [encodeString]
    rw [this]
    have hl : (natDecimal s.length).length + 1 = (natDecimal s.length ++ [58]).length := by
      simp
    rw [hl, List.drop_left]
  rw [decode_bencoded_string]
  simp only [hcolon, htake, parseUsize_natDecimal s.length h, Option.bind_eq_bind,
    Option.some_bind]
  rw [if_pos (by rw [hlen2]; omega)]
  rw [hdrop]
  have ht : (s ++ rest).take s.length = s := List.take_left s rest
  rw [ht]
  have hlen3 : (encodeString s).length = (natDecimal s.length).length + 1 + s.length := by
    simp [encodeString]
    omega
  rw [hlen3]

/-! ## Decoding an encoded integer -/

theorem decodeIntLoop_digits (n : Nat) : ∀ (suffix : List Nat) (ending : Nat) (acc mult : Int),
    0 ≤ acc → acc * 10 ^ (natDecimal n).length + n ≤ 2 ^ 63 - 1 →
    decodeIntLoop (natDecimal n ++ suffix) ending acc mult =
      decodeIntLoop suffix (ending + (natDecimal n).length)
        (acc * 10 ^ (natDecimal n).length + n) mult := by
  induction n using Nat.strong_induction_on with
  | _ n ih =>
    intro suffix ending acc mult hacc hbound
    rw [natDecimal_eq] at hbound ⊢
    by_cases h10 : n < 10
    · rw [if_pos h10] at hbound ⊢
      simp only [List.length_singleton, pow_one] at hbound ⊢
      simp only [List.cons_append, decodeIntLoop]
      rw [if_neg (by omega : ¬48 + n = 101), if_neg (by omega : ¬48 + n = 45),
        if_pos (by omega : 48 ≤ 48 + n ∧ 48 + n ≤ 57)]
      have hc : ((48 + n : Nat) : Int) - 48 = (n : Int) := by push_cast; ring
      rw [hc]
      rw [if_pos (by omega : acc * 10 + (n : Int) ≤ 2 ^ 63 - 1)]
      rfl
    · rw [if_neg h10] at hbound ⊢
      have hmod := Nat.div_add_mod n 10
      have hd10 : n / 10 < n := Nat.div_lt_self (by omega) (by omega)
      have hlen : (natDecimal (n / 10) ++ [48 + n % 10]).length
          = (natDecimal (n / 10)).length + 1 := by simp
      rw [hlen, pow_succ, ← mul_assoc] at hbound ⊢
      have hcast : ((n : Int)) = 10 * ((n / 10 : Nat) : Int) + ((n % 10 : Nat) : Int) := by
        push_cast
        omega
      have hb2 : acc * 10 ^ (natDecimal (n / 10)).length + (n / 10 : Nat) ≤ 2 ^ 63 - 1 := by
        omega
      rw [List.append_assoc, List.singleton_append]
      rw [ih (n / 10) hd10 ((48 + n % 10) :: suffix) ending acc mult hacc hb2]
      simp only [decodeIntLoop]
      rw [if_neg (by have : n % 10 < 10 := Nat.mod_lt n (by omega); omega : ¬48 + n % 10 = 101),
        if_neg (by omega : ¬48 + n % 10 = 45),
        if_pos (by have : n % 10 < 10 := Nat.mod_lt n (by omega); omega :
          48 ≤ 48 + n % 10 ∧ 48 + n % 10 ≤ 57)]
      have hc : ((48 + n % 10 : Nat) : Int) - 48 = ((n % 10 : Nat) : Int) := by push_cast; ring
      rw [hc]
      rw [if_pos (by omega :
        (acc * 10 ^ (natDecimal (n / 10)).length + (n / 10 : Nat)) * 10 + ((n % 10 : Nat) : Int)
          ≤ 2 ^ 63 - 1)]
      have hfin : (acc * 10 ^ (natDecimal (n / 10)).length + ((n / 10 : Nat) : Int)) * 10
          + ((n % 10 : Nat) : Int)
          = acc * 10 ^ (natDecimal (n / 10)).length * 10 + (n : Int) := by omega
      have hend : ending + (natDecimal (n / 10)).length + 1
          = ending + ((natDecimal (n / 10)).length + 1) := by omega
      rw [hfin, hend]

theorem decode_integer_encode (i : Int) (rest : List Nat) (h : i.natAbs ≤ 2 ^ 63 - 1) :
    decode_bencoded_integer (bencode (BencodedValue.Integer i) ++ rest)
      = some ((bencode (BencodedValue.Integer i)).length, BencodedValue.Integer i) := by
  have hb : (0 : Int) * 10 ^ (natDecimal i.natAbs).length + (i.natAbs : Int) ≤ 2 ^ 63 - 1 := by
    have : ((i.natAbs : Nat) : Int) ≤ ((2 ^ 63 - 1 : Nat) : Int) := by exact_mod_cast h
    simpa using this.trans_eq (by norm_num)
  by_cases hneg : i < 0
  · have hbe : bencode (BencodedValue.Integer i)
        = 105 :: (45 :: natDecimal i.natAbs ++ [101]) := by
      simp [bencode, intDecimal, hneg]
    rw [hbe]
    simp only [List.cons_append, List.append_assoc, List.singleton_append, List.nil_append]
    simp only [decode_bencoded_integer]
    rw [show decodeIntLoop (45 :: (natDecimal i.natAbs ++ 101 :: rest)) 2 0 1
        = decodeIntLoop (natDecimal i.natAbs ++ 101 :: rest) 3 0 (-1) by
      simp [decodeIntLoop]]
    rw [decodeIntLoop_digits i.natAbs (101 :: rest) 3 0 (-1) le_rfl hb]
    rw [show decodeIntLoop (101 :: rest) (3 + (natDecimal i.natAbs).length)
        (0 * 10 ^ (natDecimal i.natAbs).length + (i.natAbs : Int)) (-1)
        = some (3 + (natDecimal i.natAbs).length,
            0 * 10 ^ (natDecimal i.natAbs).length + (i.natAbs : Int), -1) by
      simp [decodeIntLoop]]
    have hval : (0 * 10 ^ (natDecimal i.natAbs).length + ((i.natAbs : Nat) : Int)) * (-1)
        = i := by omega
    simp only [Option.map_some']
    rw [hval]
    congr 1
    simp
    omega
  · have hbe : bencode (BencodedValue.Integer i) = 105 :: (natDecimal i.natAbs ++ [101]) := by
      simp [bencode, intDecimal, hneg]
    rw [hbe]
    simp only [List.cons_append, List.append_assoc, List.singleton_append, List.nil_append]
    simp only [decode_bencoded_integer]
    rw [decodeIntLoop_digits i.natAbs (101 :: rest) 2 0 1 le_rfl hb]
    rw [show decodeIntLoop (101 :: rest) (2 + (natDecimal i.natAbs).length)
        (0 * 10 ^ (natDecimal i.natAbs).length + (i.natAbs : Int)) 1
        = some (2 + (natDecimal i.natAbs).length,
            0 * 10 ^ (natDecimal i.natAbs).length + (i.natAbs : Int), 1) by
      simp [decodeIntLoop]]
    have hval : (0 * 10 ^ (natDecimal i.natAbs).length + ((i.natAbs : Nat) : Int)) * 1
        = i := by omega
    simp only [Option.map_some']
    rw [hval]
    congr 1
    simp
    omega

/-! ## Size bounds and head bytes of encodings -/

theorem encodeString_head (s : List Nat) :
    ∃ c cs, encodeString s = c :: cs ∧ 48 ≤ c ∧ c ≤ 57 := by
  obtain ⟨c, cs, hcons⟩ : ∃ c cs, natDecimal s.length = c :: cs := by
    cases hnd : natDecimal s.length with
    | nil => exact absurd hnd (natDecimal_ne_nil s.length)
    | cons a l => exact ⟨a, l, rfl⟩
  have hdig := natDecimal_digits s.length c (by rw [hcons]; simp)
  exact ⟨c, cs ++ 58 :: s, by rw [encodeString, hcons]; rfl, hdig.1, hdig.2⟩

theorem bencode_head_ne_e : ∀ v : BencodedValue, ∃ c cs, bencode v = c :: cs ∧ c ≠ 101
  | .String s => by
    obtain ⟨c, cs, h, h1, h2⟩ := encodeString_head s
    exact ⟨c, cs, h, by omega⟩
  | .Integer i => ⟨105, intDecimal i ++ [101], rfl, by omega⟩
  | .List l => ⟨108, bencodeList l ++ [101], rfl, by omega⟩
  | .Dict d => ⟨100, bencodeDict d ++ [101], rfl, by omega⟩

theorem encodeString_length (s : List Nat) :
    (encodeString s).length = (natDecimal s.length).length + 1 + s.length := by
  simp [encodeString]
  omega

theorem bencode_length_ge2 : ∀ v : BencodedValue, 2 ≤ (bencode v).length
  | .String s => by
    have := natDecimal_length_pos s.length
    rw [bencode, encodeString_length]
    omega
  | .Integer i => by
    have h : 1 ≤ (intDecimal i).length := by
      rw [intDecimal]
      by_cases h0 : i < 0
      · simp [h0]
      · simp [h0]
        exact natDecimal_length_pos i.natAbs
    simp [bencode]
  | .List l => by simp [bencode]
  | .Dict d => by simp [bencode]

mutual

theorem sizeB_le_len : ∀ v : BencodedValue, sizeB v ≤ (bencode v).length
  | .String s => by
    have := bencode_length_ge2 (BencodedValue.String s)
    simp only [sizeB]
    omega
  | .Integer i => by
    have := bencode_length_ge2 (BencodedValue.Integer i)
    simp only [sizeB]
    omega
  | .List l => by
    have h := sizeL_le_len l
    simp only [sizeB, bencode, List.length_cons, List.length_append, List.length_singleton]
    omega
  | .Dict d => by
    have h := sizeD_le_len d
    simp only [sizeB, bencode, List.length_cons, List.length_append, List.length_singleton]
    omega

theorem sizeL_le_len : ∀ l : BVList, sizeL l ≤ (bencodeList l).length + 1
  | .nil => by simp [sizeL, bencodeList]
  | .cons v tl => by
    have h1 := sizeB_le_len v
    have h2 := sizeL_le_len tl
    have h3 := bencode_length_ge2 v
    simp only [sizeL, bencodeList, List.length_append]
    omega

theorem sizeD_le_len : ∀ d : BVDict, sizeD d ≤ (bencodeDict d).length + 1
  | .nil => by simp [sizeD, bencodeDict]
  | .cons k v tl => by
    have h1 := sizeB_le_len v
    have h2 := sizeD_le_len tl
    have h3 := bencode_length_ge2 v
    have h4 : 1 ≤ (encodeString k).length := by
      rw [encodeString_length]
      omega
    simp only [sizeD, bencodeDict, List.length_append]
    omega

end

/-! ## The decode-encode round trip -/

mutual

theorem decodeValue_bencode : ∀ (v : BencodedValue) (rest : List Nat) (fuel : Nat),
    wfBV v = true → sizeB v ≤ fuel →
    decodeValue fuel (bencode v ++ rest) = some ((bencode v).length, v)
  | .String s, rest, fuel, hwf, hsz => by
    simp only [sizeB] at hsz
    obtain ⟨f, rfl⟩ : ∃ f, fuel = f + 1 := ⟨fuel - 1, by omega⟩
    obtain ⟨c, cs, hcs, hc1, hc2⟩ := encodeString_head s
    have hsplit : bencode (BencodedValue.String s) ++ rest = c :: (cs ++ rest) := by
      rw [show bencode (BencodedValue.String s) = encodeString s from rfl, hcs]
      rfl
    rw [hsplit]
    simp only [decodeValue]
    rw [if_pos ⟨hc1, hc2⟩]
    rw [← hsplit]
    exact decode_string_encode s rest (by simpa [wfBV] using hwf)
  | .Integer i, rest, fuel, hwf, hsz => by
    simp only [sizeB] at hsz
    obtain ⟨f, rfl⟩ : ∃ f, fuel = f + 1 := ⟨fuel - 1, by omega⟩
    have hsplit : bencode (BencodedValue.Integer i) ++ rest
        = 105 :: ((intDecimal i ++ [101]) ++ rest) := rfl
    rw [hsplit]
    simp only [decodeValue]
    rw [if_neg (by omega : ¬(48 ≤ 105 ∧ 105 ≤ 57)), if_pos trivial]
    rw [← hsplit]
    exact decode_integer_encode i rest (by simpa [wfBV] using hwf)
  | .List l, rest, fuel, hwf, hsz => by
    simp only [sizeB] at hsz
    obtain ⟨f, rfl⟩ : ∃ f, fuel = f + 1 := ⟨fuel - 1, by omega⟩
    have hwl : wfBVList l = true := by simpa [wfBV] using hwf
    have hsl : sizeL l ≤ f := by omega
    have hsplit : bencode (BencodedValue.List l) ++ rest
        = 108 :: (bencodeList l ++ 101 :: rest) := by
      simp [bencode, List.append_assoc]
    rw [hsplit]
    simp only [decodeValue]
    rw [if_neg (by omega : ¬(48 ≤ 108 ∧ 108 ≤ 57)), if_neg (by omega : ¬(108 : Nat) = 105),
      if_pos trivial]
    rw [decodeItems_bencode l rest f hwl hsl]
    simp only [Option.map_some']
    simp only [Option.some.injEq, Prod.mk.injEq]
    constructor
    · simp [bencode]
      omega
    · trivial
  | .Dict d, rest, fuel, hwf, hsz => by
    simp only [sizeB] at hsz
    obtain ⟨f, rfl⟩ : ∃ f, fuel = f + 1 := ⟨fuel - 1, by omega⟩
    have hwd : wfBVDict d = true := by simpa [wfBV] using hwf
    have hsd : sizeD d ≤ f := by omega
    have hsplit : bencode (BencodedValue.Dict d) ++ rest
        = 100 :: (bencodeDict d ++ 101 :: rest) := by
      simp [bencode, List.append_assoc]
    rw [hsplit]
    simp only [decodeValue]
    rw [if_neg (by omega : ¬(48 ≤ 100 ∧ 100 ≤ 57)), if_neg (by omega : ¬(100 : Nat) = 105),
      if_neg (by omega : ¬(100 : Nat) = 108), if_pos trivial]
    rw [decodeDictPairs_bencode d rest f hwd hsd]
    simp only [Option.map_some']
    rw [dictFromPairs_sorted d (wfBVDict_sortedKeys d hwd)]
    simp only [Option.some.injEq, Prod.mk.injEq]
    constructor
    · simp [bencode]
      omega
    · trivial

theorem decodeItems_bencode : ∀ (l : BVList) (rest : List Nat) (fuel : Nat),
    wfBVList l = true → sizeL l ≤ fuel →
    decodeItems fuel (bencodeList l ++ 101 :: rest) = some ((bencodeList l).length + 1, l)
  | .nil, rest, fuel, _, hsz => by
    simp only [sizeL] at hsz
    obtain ⟨f, rfl⟩ : ∃ f, fuel = f + 1 := ⟨fuel - 1, by omega⟩
    simp only [bencodeList, List.nil_append]
    simp only [decodeItems]
    rw [if_pos trivial]
    simp [bencodeList]
  | .cons v tl, rest, fuel, hwf, hsz => by
    simp only [wfBVList, Bool.and_eq_true] at hwf
    simp only [sizeL] at hsz
    obtain ⟨f, rfl⟩ : ∃ f, fuel = f + 1 := ⟨fuel - 1, by omega⟩
    have hv : sizeB v ≤ f := by omega
    have htl : sizeL tl ≤ f := by omega
    have hsplit : bencodeList (BVList.cons v tl) ++ 101 :: rest
        = bencode v ++ (bencodeList tl ++ 101 :: rest) := by
      simp [bencodeList, List.append_assoc]
    obtain ⟨c, cs, hcs, hc⟩ := bencode_head_ne_e v
    have hsplit2 : bencode v ++ (bencodeList tl ++ 101 :: rest)
        = c :: (cs ++ (bencodeList tl ++ 101 :: rest)) := by rw [hcs]; rfl
    rw [hsplit, hsplit2]
    simp only [decodeItems]
    rw [if_neg hc]
    rw [← hsplit2]
    rw [decodeValue_bencode v (bencodeList tl ++ 101 :: rest) f hwf.1 hv]
    simp only [Option.bind_eq_bind, Option.some_bind]
    rw [if_pos (by simp : (bencode v).length
      ≤ (bencode v ++ (bencodeList tl ++ 101 :: rest)).length)]
    rw [List.drop_left]
    rw [decodeItems_bencode tl rest f hwf.2 htl]
    simp only [Option.some_bind]
    simp only [Option.some.injEq, Prod.mk.injEq]
    constructor
    · simp [bencodeList]
      omega
    · trivial

theorem decodeDictPairs_bencode : ∀ (d : BVDict) (rest : List Nat) (fuel : Nat),
    wfBVDict d = true → sizeD d ≤ fuel →
    decodeDictPairs fuel (bencodeDict d ++ 101 :: rest) = some ((bencodeDict d).length + 1, d)
  | .nil, rest, fuel, _, hsz => by
    simp only [sizeD] at hsz
    obtain ⟨f, rfl⟩ : ∃ f, fuel = f + 1 := ⟨fuel - 1, by omega⟩
    simp only [bencodeDict, List.nil_append]
    simp only [decodeDictPairs]
    rw [if_pos trivial]
    simp [bencodeDict]
  | .cons k v tl, rest, fuel, hwf, hsz => by
    simp only [wfBVDict, Bool.and_eq_true, decide_eq_true_eq] at hwf
    simp only [sizeD] at hsz
    obtain ⟨f, rfl⟩ : ∃ f, fuel = f + 1 := ⟨fuel - 1, by omega⟩
    have hv : sizeB v ≤ f := by omega
    have htl : sizeD tl ≤ f := by omega
    have hsplit : bencodeDict (BVDict.cons k v tl) ++ 101 :: rest
        = encodeString k ++ (bencode v ++ (bencodeDict tl ++ 101 :: rest)) := by
      simp [bencodeDict, List.append_assoc]
    obtain ⟨c, cs, hcs, hc1, hc2⟩ := encodeString_head k
    have hsplit2 : encodeString k ++ (bencode v ++ (bencodeDict tl ++ 101 :: rest))
        = c :: (cs ++ (bencode v ++ (bencodeDict tl ++ 101 :: rest))) := by rw [hcs]; rfl
    rw [hsplit, hsplit2]
    simp only [decodeDictPairs]
    rw [if_neg (by omega : ¬c = 101)]
    rw [← hsplit2]
    rw [decode_string_encode k (bencode v ++ (bencodeDict tl ++ 101 :: rest)) hwf.1.1.1]
    simp only [Option.bind_eq_bind, Option.some_bind]
    rw [if_pos (by simp : (encodeString k).length
      ≤ (encodeString k ++ (bencode v ++ (bencodeDict tl ++ 101 :: rest))).length)]
    rw [List.drop_left]
    rw [decodeValue_bencode v (bencodeDict tl ++ 101 :: rest) f hwf.1.1.2 hv]
    simp only [Option.some_bind]
    rw [if_pos (by simp : (bencode v).length
      ≤ (bencode v ++ (bencodeDict tl ++ 101 :: rest)).length)]
    rw [List.drop_left]
    rw [decodeDictPairs_bencode tl rest f hwf.2 htl]
    simp only [Option.some_bind]
    simp only [Option.some.injEq, Prod.mk.injEq]
    constructor
    · simp [bencodeDict]
      omega
    · trivial

end

/-! ## Dictionary insertion always sorts -/

theorem keysAbove_btreeInsert (x k : List Nat) (v : BencodedValue) :
    ∀ d : BVDict, keysAbove x d = true → lexLt x k = true →
    keysAbove x (btreeInsert k v d) = true
  | .nil, _, hk => by simp [btreeInsert, keysAbove, hk]
  | .cons k2 v2 tl, hd, hk => by
    simp only [keysAbove, Bool.and_eq_true] at hd
    simp only [btreeInsert]
    by_cases h1 : lexLt k k2 = true
    · rw [if_pos h1]
      simp [keysAbove, hk, hd.1, hd.2]
    · rw [if_neg h1]
      by_cases h2 : k = k2
      · rw [if_pos h2]
        simp [keysAbove, hd.1, hd.2]
      · rw [if_neg h2]
        simp [keysAbove, hd.1, keysAbove_btreeInsert x k v tl hd.2 hk]

theorem sortedKeysD_btreeInsert (k : List Nat) (v : BencodedValue) :
    ∀ d : BVDict, sortedKeysD d = true → sortedKeysD (btreeInsert k v d) = true
  | .nil, _ => by simp [btreeInsert, sortedKeysD, keysAbove]
  | .cons k2 v2 tl, hd => by
    simp only [sortedKeysD, Bool.and_eq_true] at hd
    simp only [btreeInsert]
    by_cases h1 : lexLt k k2 = true
    · rw [if_pos h1]
      have habove : keysAbove k tl = true := by
        rw [keysAbove_iff]
        intro a ha
        exact lexLt_trans h1 ((keysAbove_iff k2 tl).mp hd.1 a ha)
      simp [sortedKeysD, keysAbove, h1, habove, hd.1, hd.2]
    · rw [if_neg h1]
      by_cases h2 : k = k2
      · rw [if_pos h2]
        simp [sortedKeysD, hd.1, hd.2]
      · rw [if_neg h2]
        have h3 : lexLt k2 k = true :=
          lexLt_total (by simpa using h1) h2
        simp [sortedKeysD, keysAbove_btreeInsert k2 k v tl hd.1 h3,
          sortedKeysD_btreeInsert k v tl hd.2]

theorem dictFromPairsAux_sortedKeys :
    ∀ prs acc : BVDict, sortedKeysD acc = true →
    sortedKeysD (dictFromPairsAux acc prs) = true
  | .nil, acc, h => by rw [dictFromPairsAux]; exact h
  | .cons k v tl, acc, h => by
    rw [dictFromPairsAux]
    exact dictFromPairsAux_sortedKeys tl _ (sortedKeysD_btreeInsert k v acc h)

/-- Whatever pair sequence the dictionary decoder parses, the resulting
`BTreeMap` has strictly ascending keys. -/
theorem dictFromPairs_sortedKeys (prs : BVDict) : sortedKeysD (dictFromPairs prs) = true :=
  dictFromPairsAux_sortedKeys prs BVDict.nil rfl

/-! ## Claim theorems: bencode codec -/

/-- C2: for every canonical bencoded byte sequence `B` (the canonical
encoding of a representable value), decoding consumes all of `B` and
re-encoding the decoded value yields bytes identical to `B`:
`encode(decode(B)) == B`. -/
theorem c2_roundtrip (B : List Nat) (h : CanonicalBytes B) :
    ∃ n w, decode_bencoded_value B = some (n, w) ∧ bencode w = B ∧ n = B.length := by
  obtain ⟨v, hwf, rfl⟩ := h
  refine ⟨(bencode v).length, v, ?_, rfl, rfl⟩
  rw [decode_bencoded_value]
  have hfuel : sizeB v ≤ 2 * (bencode v).length + 2 := by
    have := sizeB_le_len v
    omega
  have := decodeValue_bencode v [] (2 * (bencode v).length + 2) hwf hfuel
  simpa using this

/-- Witness for C2 at the canonical bytes `i3e`. -/
theorem c2_roundtrip_witness :
    ∃ n w, decode_bencoded_value [105, 51, 101] = some (n, w)
      ∧ bencode w = [105, 51, 101] ∧ n = [105, 51, 101].length :=
  c2_roundtrip [105, 51, 101] ⟨BencodedValue.Integer 3, by decide, by rfl⟩

/-- C3 counterexample: the integer decoder does NOT reject `i-0e`; it
returns the value 0 with ending index 4 instead of a decode error. -/
theorem c3_counterexample :
    decode_bencoded_integer [105, 45, 48, 101] = some (4, BencodedValue.Integer 0)
    ∧ (decode_bencoded_integer [105, 45, 48, 101]).isSome = true :=
  ⟨rfl, rfl⟩

/-- C3 (amended): the integer decoder performs no canonicality checks —
`i-0e` decodes to the integer 0 (consuming 4 bytes) and the leading-zero
form `i03e` decodes to 3 — while a value that does not fit into a signed
64-bit integer is a decode error (`i9223372036854775808e`, which is
`2^63`, aborts). -/
theorem c3_amended :
    decode_bencoded_integer [105, 45, 48, 101] = some (4, BencodedValue.Integer 0)
    ∧ decode_bencoded_integer [105, 48, 51, 101] = some (4, BencodedValue.Integer 3)
    ∧ decode_bencoded_integer
        [105, 57, 50, 50, 51, 51, 55, 50, 48, 51, 54, 56, 53, 52, 55, 55, 53, 56, 48, 56, 101]
      = none :=
  ⟨rfl, rfl, rfl⟩

/-- C4 counterexample: decoding the dictionary `d4:spam4:eggs3:cow3:mooe`,
whose keys `spam, cow` are NOT in ascending order, does not fail — it
produces the silently re-sorted dictionary `{cow: moo, spam: eggs}`. -/
theorem c4_counterexample :
    decode_bencoded_dict
      [100, 52, 58, 115, 112, 97, 109, 52, 58, 101, 103, 103, 115,
       51, 58, 99, 111, 119, 51, 58, 109, 111, 111, 101]
      = some (24, BencodedValue.Dict
          (BVDict.cons [99, 111, 119] (BencodedValue.String [109, 111, 111])
            (BVDict.cons [115, 112, 97, 109] (BencodedValue.String [101, 103, 103, 115])
              BVDict.nil)))
    ∧ (decode_bencoded_dict
        [100, 52, 58, 115, 112, 97, 109, 52, 58, 101, 103, 103, 115,
         51, 58, 99, 111, 119, 51, 58, 109, 111, 111, 101]).isSome = true :=
  ⟨rfl, rfl⟩

/-- C4 (amended): the dictionary decoder performs no key-order check.
Each parsed pair is inserted into an ordered map, so decoding an input
with out-of-order keys succeeds with the keys silently re-sorted
(`d4:spam4:eggs3:cow3:mooe` decodes to `{cow: moo, spam: eggs}`), a
duplicate key silently overwrites the earlier value (`d1:a1:b1:a1:ce`
decodes to `{a: c}`), and the resulting map always has strictly ascending
keys. -/
theorem c4_amended :
    decode_bencoded_dict
      [100, 52, 58, 115, 112, 97, 109, 52, 58, 101, 103, 103, 115,
       51, 58, 99, 111, 119, 51, 58, 109, 111, 111, 101]
      = some (24, BencodedValue.Dict
          (BVDict.cons [99, 111, 119] (BencodedValue.String [109, 111, 111])
            (BVDict.cons [115, 112, 97, 109] (BencodedValue.String [101, 103, 103, 115])
              BVDict.nil)))
    ∧ decode_bencoded_dict [100, 49, 58, 97, 49, 58, 98, 49, 58, 97, 49, 58, 99, 101]
      = some (14, BencodedValue.Dict
          (BVDict.cons [97] (BencodedValue.String [99]) BVDict.nil))
    ∧ ∀ prs : BVDict, sortedKeysD (dictFromPairs prs) = true :=
  ⟨rfl, rfl, dictFromPairs_sortedKeys⟩

/-! ## Claim theorems: piece downloader -/

/-- C5: the request generator divides with truncation (`floor`), not
`ceil` — at piece length 16385 it emits a single full-size request,
never asking for the final byte, although `ceil(16385/16384) = 2`; the
exact 32 KiB case coincidentally matches the specified behaviour.  The
`assert_eq` in the `download_piece` handler then fails, because the
reassembled payload is short. -/
theorem c5_floor_requests :
    download_piece_requests 0 16385 = [PeerMessage.Request 0 0 16384]
    ∧ (download_piece_requests 0 16385).length = 1
    ∧ (16385 + 16384 - 1) / 16384 = 2
    ∧ download_piece_requests 0 32768
      = [PeerMessage.Request 0 0 16384, PeerMessage.Request 0 16384 16384] :=
  ⟨by decide, by decide, by decide, by decide⟩

/-! ## Claim theorems: peer-message framing -/

theorem take4_u32be_append (n : Nat) (t : List Nat) : (u32be n ++ t).take 4 = u32be n := by
  rw [show (4 : Nat) = (u32be n).length from rfl]
  exact List.take_left _ _

theorem fromBe32_u32be (n : Nat) (h : n < 2 ^ 32) : fromBe32 (u32be n) = n := by
  simp only [u32be, fromBe32]
  omega

/-- C6 counterexample: the frame written for a `request` does not carry
`payload length + 1` in its length prefix — the `Request` arm writes the
request's `length` FIELD as the prefix.  A request for 16384 bytes has a
12-byte payload, so the prefix should be `u32be 13`, but the frame starts
`00 00 40 00` (16384).  The `Have` arm is also wrong: it writes prefix 5
followed by no payload at all. -/
theorem c6_counterexample :
    (encodePeerMessage (PeerMessage.Request 1 2 16384)).take 4
      ≠ u32be ((encodePeerMessage (PeerMessage.Request 1 2 16384)).length - 5 + 1)
    ∧ (encodePeerMessage (PeerMessage.Request 1 2 16384)).take 4 = [0, 0, 64, 0]
    ∧ (encodePeerMessage (PeerMessage.Request 1 2 16384)).length - 5 + 1 = 13
    ∧ encodePeerMessage PeerMessage.Have = [0, 0, 0, 5, 4] :=
  ⟨by decide, by decide, by decide, by decide⟩

/-- C6 (amended): the 4-byte big-endian length prefix equals the payload
length plus 1 for `choke`/`unchoke`/`interested`/`not-interested`
(prefix 1), for `bitfield` (prefix `payload length + 1`, e.g. the payload
`[1,2,3,4,5]` encodes to `00 00 00 06 05 01 02 03 04 05`), and for
`piece` (prefix `9 + block length`); but `have` writes prefix 5 with an
empty payload, and `request`/`cancel` write their `length` field as the
frame prefix instead of 13. -/
theorem c6_amended :
    ((encodePeerMessage PeerMessage.Choke).take 4 = u32be (0 + 1)
      ∧ (encodePeerMessage PeerMessage.Unchoke).take 4 = u32be (0 + 1)
      ∧ (encodePeerMessage PeerMessage.Interested).take 4 = u32be (0 + 1)
      ∧ (encodePeerMessage PeerMessage.NotInterested).take 4 = u32be (0 + 1))
    ∧ (∀ payload : List Nat,
        (encodePeerMessage (PeerMessage.Bitfield payload)).take 4 = u32be (payload.length + 1))
    ∧ (∀ index begin_ block : _,
        (encodePeerMessage (PeerMessage.Piece index begin_ block)).take 4
          = u32be (9 + block.length))
    ∧ encodePeerMessage PeerMessage.Have = u32be 5 ++ [4]
    ∧ (∀ index begin_ length : Nat,
        (encodePeerMessage (PeerMessage.Request index begin_ length)).take 4 = u32be length)
    ∧ (∀ index begin_ length : Nat,
        (encodePeerMessage (PeerMessage.Cancel index begin_ length)).take 4 = u32be length)
    ∧ encodePeerMessage (PeerMessage.Bitfield [1, 2, 3, 4, 5])
      = [0, 0, 0, 6, 5, 1, 2, 3, 4, 5] := by
  refine ⟨⟨by decide, by decide, by decide, by decide⟩, ?_, ?_, by decide, ?_, ?_, by decide⟩
  · intro payload
    exact take4_u32be_append _ _
  · intro index begin_ block
    exact take4_u32be_append _ _
  · intro index begin_ length
    exact take4_u32be_append _ _
  · intro index begin_ length
    exact take4_u32be_append _ _

/-- C7: for every peer-message variant with fields that fit its Rust
types, decoding the frame produced by encoding it returns the original
message: `decode_frame(encode_frame(m)) = m`.  (This holds even for the
variants whose length prefix is wrong, because the decoder never reads
the prefix.) -/
theorem c7_decode_encode : ∀ m : PeerMessage, wfPeerMessage m →
    decodePeerMessage (encodePeerMessage m) = some m
  | .Choke, _ => rfl
  | .Unchoke, _ => rfl
  | .Interested, _ => rfl
  | .NotInterested, _ => rfl
  | .Have, _ => rfl
  | .Bitfield payload, _ => by
    show decodePeerMessage (u32be (payload.length + 1) ++ 5 :: payload) = _
    simp [u32be, decodePeerMessage, List.get?]
  | .Request index begin_ length, h => by
    obtain ⟨hi, hb, hl⟩ := h
    show decodePeerMessage
        (u32be length ++ 6 :: (u32be index ++ u32be begin_) ++ u32be length) = _
    simp [u32be, decodePeerMessage, List.get?, fromBe32, List.take, List.drop]
    omega
  | .Piece index begin_ block, h => by
    obtain ⟨hi, hb, hblk⟩ := h
    show decodePeerMessage
        (u32be (9 + block.length) ++ 7 :: (u32be index ++ u32be begin_) ++ block) = _
    simp [u32be, decodePeerMessage, List.get?, fromBe32, List.take, List.drop, hblk]
    omega
  | .Cancel index begin_ length, h => by
    obtain ⟨hi, hb, hl⟩ := h
    show decodePeerMessage
        (u32be length ++ 8 :: (u32be index ++ u32be begin_) ++ u32be length) = _
    simp [u32be, decodePeerMessage, List.get?, fromBe32, List.take, List.drop]
    omega

/-- Witness for C7 at a concrete request. -/
theorem c7_decode_encode_witness :
    decodePeerMessage (encodePeerMessage (PeerMessage.Request 1 2 3))
      = some (PeerMessage.Request 1 2 3) :=
  c7_decode_encode (PeerMessage.Request 1 2 3) (by refine ⟨?_, ?_, ?_⟩ <;> norm_num)

/-! ## Claim theorems: awaiting unchoke -/

/-- C9 counterexample: with a keep-alive frame (`00 00 00 00`) in front
of a perfectly good unchoke frame, `read_unchoke` does NOT skip the
keep-alive and succeed — the payload size `length - 1` underflows and the
read fails.  Without the keep-alive the same unchoke frame succeeds. -/
theorem c9_counterexample :
    read_unchoke PeerState.Interested ([0, 0, 0, 0] ++ [0, 0, 0, 1, 1]) = none
    ∧ read_unchoke PeerState.Interested [0, 0, 0, 1, 1]
      = some (PeerMessage.Unchoke, [], PeerState.Unchoke) :=
  ⟨rfl, rfl⟩

/-- C9 (amended): `read_unchoke` reads exactly ONE framed message and
succeeds exactly when that message is `unchoke` (id 1); any other id is
an error, and it must be called in the `Interested` state.  Keep-alives
are not skipped: a zero length prefix makes the payload size computation
`length - 1` underflow, so reading any stream that starts with a
keep-alive fails instead of being ignored. -/
theorem c9_amended :
    (∀ rest : List Nat, readMessage PeerState.Interested ([0, 0, 0, 0] ++ rest) = none)
    ∧ (∀ s rest, readMessage PeerState.Interested s = some (PeerMessage.Unchoke, rest) →
        read_unchoke PeerState.Interested s
          = some (PeerMessage.Unchoke, rest, PeerState.Unchoke))
    ∧ (∀ s m rest, readMessage PeerState.Interested s = some (m, rest) →
        m ≠ PeerMessage.Unchoke → read_unchoke PeerState.Interested s = none)
    ∧ (∀ st s, st ≠ PeerState.Interested → read_unchoke st s = none) := by
  refine ⟨?_, ?_, ?_, ?_⟩
  · intro rest
    by_cases hr : 1 ≤ rest.length
    · simp [readMessage, fromBe32, hr]
    · simp [readMessage, fromBe32, hr]
  · intro s rest h
    simp [read_unchoke, h]
  · intro s m rest h hne
    simp only [read_unchoke, if_pos rfl, h]
    cases m with
    | Unchoke => exact absurd rfl hne
    | Choke => rfl
    | Interested => rfl
    | NotInterested => rfl
    | Have => rfl
    | Bitfield p => rfl
    | Request a b c => rfl
    | Piece a b c => rfl
    | Cancel a b c => rfl
  · intro st s hst
    simp [read_unchoke, hst]

/-- Witness for C9 (amended) on a stream holding a single unchoke
frame. -/
theorem c9_amended_witness :
    read_unchoke PeerState.Interested [0, 0, 0, 1, 1]
      = some (PeerMessage.Unchoke, [], PeerState.Unchoke) :=
  c9_amended.2.1 [0, 0, 0, 1, 1] [] rfl

/-! ## Claim theorems: piece block padding and reassembly -/

theorem assemblePayload_length : ∀ msgs : List PeerMessage,
    (∀ m ∈ msgs, ∃ i b blk, m = PeerMessage.Piece i b blk ∧ blk.length = 16384) →
    ∃ out, assemblePayload msgs = some out ∧ out.length = msgs.length * 16384 := by
  intro msgs
  induction msgs using List.reverseRecOn with
  | nil => intro _; exact ⟨[], rfl, rfl⟩
  | append_singleton tl m ih =>
    intro h
    obtain ⟨out, hout, hlen⟩ := ih fun x hx => h x (by simp [hx])
    obtain ⟨i, b, blk, rfl, hblk⟩ := h m (by simp)
    refine ⟨out ++ blk, ?_, ?_⟩
    · rw [assemblePayload] at hout ⊢
      rw [List.foldl_append, hout]
      rfl
    · simp [hblk, hlen]
      ring

/-- C10: a received `piece` frame whose block payload holds `n ≤ 16384`
bytes decodes to a `Piece` whose block is exactly 16384 bytes — the
payload followed by `16384 - n` zero bytes; consequently the buffer the
`download_piece` handler reassembles by concatenating decoded blocks
always has length `(number of piece messages) * 16384`, a multiple of
16384, regardless of the requested block lengths. -/
theorem c10_piece_padding :
    (∀ p0 p1 p2 p3 index begin_ : Nat, ∀ payload : List Nat,
      index < 2 ^ 32 → begin_ < 2 ^ 32 → payload.length ≤ 16384 →
      decodePeerMessage ([p0, p1, p2, p3, 7] ++ (u32be index ++ u32be begin_ ++ payload))
        = some (PeerMessage.Piece index begin_
            (payload ++ List.replicate (16384 - payload.length) 0))
      ∧ (payload ++ List.replicate (16384 - payload.length) 0).length = 16384)
    ∧ (∀ msgs : List PeerMessage,
        (∀ m ∈ msgs, ∃ i b blk, m = PeerMessage.Piece i b blk ∧ blk.length = 16384) →
        ∃ out, assemblePayload msgs = some out ∧ out.length = msgs.length * 16384) := by
  constructor
  · intro p0 p1 p2 p3 index begin_ payload hi hb hp
    constructor
    · simp [decodePeerMessage, u32be, List.get?, fromBe32, List.take, List.drop, hp]
      exact ⟨by omega, by omega⟩
    · simp [List.length_append, List.length_replicate]
      omega
  · exact assemblePayload_length

/-- Witness for C10: a 3-byte block payload decodes into a zero-padded
16384-byte block, and a single full piece message reassembles to a
16384-byte buffer. -/
theorem c10_piece_padding_witness :
    (decodePeerMessage ([0, 0, 0, 0, 7] ++ (u32be 5 ++ u32be 6 ++ [1, 2, 3]))
        = some (PeerMessage.Piece 5 6 ([1, 2, 3] ++ List.replicate (16384 - 3) 0))
      ∧ ([1, 2, 3] ++ List.replicate (16384 - 3) 0).length = 16384)
    ∧ ∃ out, assemblePayload [PeerMessage.Piece 0 0 (List.replicate 16384 0)] = some out
        ∧ out.length = 1 * 16384 := by
  constructor
  · exact c10_piece_padding.1 0 0 0 0 5 6 [1, 2, 3] (by norm_num) (by norm_num) (by norm_num)
  · refine c10_piece_padding.2 [PeerMessage.Piece 0 0 (List.replicate 16384 0)] ?_
    intro m hm
    simp only [List.mem_singleton] at hm
    subst hm
    exact ⟨0, 0, List.replicate 16384 0, rfl, by rw [List.length_replicate]⟩

/-! ## Claim theorems: peer handshake -/

/-- C8 counterexample: the handshake parser verifies NOTHING.  A 68-byte
reply whose length byte is 0 (not 19), whose protocol string is 19 `X`
bytes (not `"BitTorrent protocol"`), and whose info-hash differs from the
one sent is parsed successfully — no `HandshakeError` is raised for the
mismatching info-hash. -/
theorem c8_counterexample :
    (handshakeStep (List.replicate 20 1)
        (0 :: (List.replicate 19 88 ++ (List.replicate 8 0
          ++ (List.replicate 20 2 ++ List.replicate 20 3))))).2
      = some { length := 0, protocol := List.replicate 19 88,
               reserved := List.replicate 8 0,
               info_hash := List.replicate 20 2,
               peer_id := List.replicate 20 3 }
    ∧ List.replicate 20 2 ≠ List.replicate 20 1
    ∧ (0 : Nat) ≠ 19
    ∧ List.replicate 19 88 ≠ protocolBytes :=
  ⟨rfl, by decide, by decide, by decide⟩

/-- C8 (amended): `handshake` writes the 68-byte frame
`19 ‖ "BitTorrent protocol" ‖ 8×0 ‖ info_hash ‖ peer_id` (for a 20-byte
info-hash), fills a zero-initialised 68-byte buffer with a single `read`
(not `read_exact`, so a short read leaves trailing zeros), and parses the
reply purely positionally: it never checks the length byte, the protocol
string, or the info-hash, and the only failure modes are a reply shorter
than 68 bytes or invalid UTF-8 in bytes 1..20.  The remote peer-id is
bytes 48..68 of the reply. -/
theorem c8_amended :
    (∀ info_hash reply : List Nat, info_hash.length = 20 →
      ((handshakeStep info_hash reply).1).length = 68
      ∧ (handshakeStep info_hash reply).1
        = 19 :: (protocolBytes ++ (List.replicate 8 0 ++ (info_hash ++ PEER_ID))))
    ∧ (∀ reply : List Nat, reply.length = 68 →
        validUtf8 ((reply.drop 1).take 19) = true →
        handshakeFromBytes reply
          = some { length := reply.headI, protocol := (reply.drop 1).take 19,
                   reserved := (reply.drop 20).take 8,
                   info_hash := (reply.drop 28).take 20,
                   peer_id := (reply.drop 48).take 20 }) := by
  constructor
  · intro info_hash reply h
    constructor
    · simp [handshakeStep, handshakeToBytes, PeerHandshake.new, protocolBytes, PEER_ID, h]
    · simp [handshakeStep, handshakeToBytes, PeerHandshake.new]
  · intro reply h hutf
    rw [handshakeFromBytes, if_pos (by omega), if_pos hutf]

/-- Witness for C8 (amended) at a concrete info-hash and reply. -/
theorem c8_amended_witness :
    (((handshakeStep (List.replicate 20 1) []).1).length = 68
      ∧ (handshakeStep (List.replicate 20 1) []).1
        = 19 :: (protocolBytes ++ (List.replicate 8 0
            ++ (List.replicate 20 1 ++ PEER_ID))))
    ∧ handshakeFromBytes (List.replicate 68 0)
      = some { length := (List.replicate 68 (0 : Nat)).headI,
               protocol := ((List.replicate 68 (0 : Nat)).drop 1).take 19,
               reserved := ((List.replicate 68 (0 : Nat)).drop 20).take 8,
               info_hash := ((List.replicate 68 (0 : Nat)).drop 28).take 20,
               peer_id := ((List.replicate 68 (0 : Nat)).drop 48).take 20 } :=
  ⟨c8_amended.1 (List.replicate 20 1) [] (by decide),
   c8_amended.2 (List.replicate 68 0) (by decide) (by decide)⟩


/-! ## Claim theorems: info-hash byte identity -/

/-- On ASCII bytes `String::from_utf8_lossy` is the identity. -/
theorem lossyUtf8_ascii : ∀ s : List Nat, isAsciiBytes s = true → lossyUtf8 s = s
  | [], _ => by rw [lossyUtf8.eq_def]
  | c :: rest, h => by
    simp only [isAsciiBytes, List.all_cons, Bool.and_eq_true, decide_eq_true_eq] at h
    rw [lossyUtf8.eq_def]
    dsimp only
    rw [if_pos h.1]
    rw [lossyUtf8_ascii rest (by simpa [isAsciiBytes] using h.2)]

/-- serde recovers exactly the original bytes from the JSON number array
produced for a non-ASCII byte-string. -/
theorem jsonNumsToBytes_map : ∀ s : List Nat, (∀ b ∈ s, b < 256) →
    jsonNumsToBytes (s.map fun b : Nat => Json.num (b : Int)) = some s
  | [], _ => rfl
  | c :: rest, h => by
    have hc : c < 256 := h c (by simp)
    simp only [List.map_cons, jsonNumsToBytes]
    rw [if_pos (by omega : (0 : Int) ≤ (c : Int) ∧ (c : Int) ≤ 255)]
    rw [jsonNumsToBytes_map rest fun b hb => h b (by simp [hb])]
    simp

/-- The sorted four-key `BTreeMap` built by `Info::info_hash` and
`From<Info>`. -/
theorem infoToBencodedDict_eq (inf : Info) : infoToBencodedDict inf
    = BVDict.cons lengthKey (BencodedValue.Integer inf.length)
        (BVDict.cons nameKey (BencodedValue.String inf.name)
          (BVDict.cons pieceLengthKey (BencodedValue.Integer inf.piece_length)
            (BVDict.cons piecesKey (BencodedValue.String inf.pieces) BVDict.nil))) := rfl

/-- C1: for a `.torrent` whose info dictionary holds exactly the four
known keys (ASCII `name`, binary `pieces` that are not pure ASCII,
in-range integers — the shape of a real single-file torrent),
`read_from_file` recovers every `Info` field byte-for-byte (no lossy
normalization on any successful path), and `info_hash` therefore hashes
bytes byte-identical to the info slice of the original file, which
appears verbatim between the `4:info` key and the final `e` of the
torrent. -/
theorem c1_info_hash_bytes (sha1 : List Nat → List Nat) (announce : List Nat) (inf : Info)
    (hann : isAsciiBytes announce = true)
    (hname : isAsciiBytes inf.name = true)
    (hpieces_byte : ∀ b ∈ inf.pieces, b < 256)
    (hpieces_nonascii : isAsciiBytes inf.pieces = false)
    (hlen : inf.length.natAbs ≤ 2 ^ 63 - 1)
    (hplen : inf.piece_length.natAbs ≤ 2 ^ 63 - 1)
    (hnlen : inf.name.length < 2 ^ 64)
    (hpclen : inf.pieces.length < 2 ^ 64)
    (halen : announce.length < 2 ^ 64) :
    read_from_file (torrentBytes announce inf) = some { announce := announce, info := inf }
    ∧ info_hash sha1 inf = sha1 (bencode (BencodedValue.Dict (infoToBencodedDict inf)))
    ∧ torrentBytes announce inf
        = (100 :: (encodeString announceKey ++ (encodeString announce ++ encodeString infoKey)))
          ++ (bencode (BencodedValue.Dict (infoToBencodedDict inf)) ++ [101]) := by
  have hwfD : wfBVDict (infoToBencodedDict inf) = true := by
    rw [infoToBencodedDict_eq]
    simp [wfBVDict, wfBV, keysAbove, lexLt, lengthKey, nameKey, pieceLengthKey, piecesKey]
    repeat' apply And.intro
    all_goals omega
  have hwfTop : wfBV (BencodedValue.Dict
      (BVDict.cons announceKey (BencodedValue.String announce)
        (BVDict.cons infoKey (BencodedValue.Dict (infoToBencodedDict inf)) BVDict.nil)))
      = true := by
    simp [wfBV, wfBVDict, keysAbove, lexLt, announceKey, infoKey]
    repeat' apply And.intro
    all_goals first | omega | decide
  have hdec : decode_bencoded_value (torrentBytes announce inf)
      = some ((torrentBytes announce inf).length,
          BencodedValue.Dict
            (BVDict.cons announceKey (BencodedValue.String announce)
              (BVDict.cons infoKey (BencodedValue.Dict (infoToBencodedDict inf))
                BVDict.nil))) := by
    rw [decode_bencoded_value]
    have hfuel := sizeB_le_len (BencodedValue.Dict
      (BVDict.cons announceKey (BencodedValue.String announce)
        (BVDict.cons infoKey (BencodedValue.Dict (infoToBencodedDict inf)) BVDict.nil)))
    have h := decodeValue_bencode
      (BencodedValue.Dict
        (BVDict.cons announceKey (BencodedValue.String announce)
          (BVDict.cons infoKey (BencodedValue.Dict (infoToBencodedDict inf)) BVDict.nil)))
      [] (2 * (torrentBytes announce inf).length + 2) hwfTop
      (by
        rw [show torrentBytes announce inf
          = bencode (BencodedValue.Dict
              (BVDict.cons announceKey (BencodedValue.String announce)
                (BVDict.cons infoKey (BencodedValue.Dict (infoToBencodedDict inf))
                  BVDict.nil))) from rfl]
        omega)
    simpa using h
  have hka : lossyUtf8 [97, 110, 110, 111, 117, 110, 99, 101]
      = [97, 110, 110, 111, 117, 110, 99, 101] := lossyUtf8_ascii _ (by decide)
  have hki : lossyUtf8 [105, 110, 102, 111] = [105, 110, 102, 111] :=
    lossyUtf8_ascii _ (by decide)
  have hkl : lossyUtf8 [108, 101, 110, 103, 116, 104] = [108, 101, 110, 103, 116, 104] :=
    lossyUtf8_ascii _ (by decide)
  have hkn : lossyUtf8 [110, 97, 109, 101] = [110, 97, 109, 101] :=
    lossyUtf8_ascii _ (by decide)
  have hkpl : lossyUtf8 [112, 105, 101, 99, 101, 32, 108, 101, 110, 103, 116, 104]
      = [112, 105, 101, 99, 101, 32, 108, 101, 110, 103, 116, 104] :=
    lossyUtf8_ascii _ (by decide)
  have hkp : lossyUtf8 [112, 105, 101, 99, 101, 115] = [112, 105, 101, 99, 101, 115] :=
    lossyUtf8_ascii _ (by decide)
  have hjson : bencodedToJson
      (BencodedValue.Dict
        (BVDict.cons announceKey (BencodedValue.String announce)
          (BVDict.cons infoKey (BencodedValue.Dict (infoToBencodedDict inf)) BVDict.nil)))
      = Json.obj
          [(announceKey, Json.str announce),
           (infoKey, Json.obj
             [(lengthKey, Json.num inf.length),
              (nameKey, Json.str inf.name),
              (pieceLengthKey, Json.num inf.piece_length),
              (piecesKey, Json.arr (inf.pieces.map fun b : Nat => Json.num (b : Int)))])] := by
    rw [infoToBencodedDict_eq]
    simp [bencodedToJson, bencodedToJsonDict, jsonInsertAll, jsonInsert, lexLt,
      hka, hki, hkl, hkn, hkpl, hkp, hann, hname, hpieces_nonascii,
      lossyUtf8_ascii announce hann, lossyUtf8_ascii inf.name hname,
      announceKey, infoKey, lengthKey, nameKey, pieceLengthKey, piecesKey]
  have h64l : jsonToI64 (Json.num inf.length) = some inf.length := by
    simp only [jsonToI64]
    rw [if_pos (by omega)]
  have h64pl : jsonToI64 (Json.num inf.piece_length) = some inf.piece_length := by
    simp only [jsonToI64]
    rw [if_pos (by omega)]
  have hpc : jsonToBytes (Json.arr (inf.pieces.map fun b : Nat => Json.num (b : Int)))
      = some inf.pieces := by
    simp only [jsonToBytes]
    exact jsonNumsToBytes_map _ hpieces_byte
  refine ⟨?_, rfl, ?_⟩
  · rw [read_from_file]
    rw [hdec]
    simp only [Option.bind_eq_bind, Option.some_bind]
    rw [hjson]
    simp [metainfoFromJson, infoFromJson, jsonLookup, jsonToString, h64l, h64pl, hpc,
      announceKey, infoKey, lengthKey, nameKey, pieceLengthKey, piecesKey]
  · rw [show torrentBytes announce inf
      = bencode (BencodedValue.Dict
          (BVDict.cons announceKey (BencodedValue.String announce)
            (BVDict.cons infoKey (BencodedValue.Dict (infoToBencodedDict inf))
              BVDict.nil))) from rfl]
    simp [bencode, bencodeDict, List.append_assoc]

/-- Witness for C1 at a concrete torrent: announce `http://t`, name `ab`,
20 pieces bytes `0x80`, with the identity in place of SHA-1. -/
theorem c1_info_hash_bytes_witness :
    read_from_file (torrentBytes [104, 116, 116, 112]
        { length := 5, name := [97, 98], piece_length := 3,
          pieces := List.replicate 20 128 })
      = some { announce := [104, 116, 116, 112],
               info := { length := 5, name := [97, 98], piece_length := 3,
                         pieces := List.replicate 20 128 } }
    ∧ info_hash (fun x => x)
        { length := 5, name := [97, 98], piece_length := 3,
          pieces := List.replicate 20 128 }
      = (fun x : List Nat => x)
          (bencode (BencodedValue.Dict (infoToBencodedDict
            { length := 5, name := [97, 98], piece_length := 3,
              pieces := List.replicate 20 128 })))
    ∧ torrentBytes [104, 116, 116, 112]
        { length := 5, name := [97, 98], piece_length := 3,
          pieces := List.replicate 20 128 }
      = (100 :: (encodeString announceKey ++ (encodeString [104, 116, 116, 112]
            ++ encodeString infoKey)))
        ++ (bencode (BencodedValue.Dict (infoToBencodedDict
              { length := 5, name := [97, 98], piece_length := 3,
                pieces := List.replicate 20 128 })) ++ [101]) :=
  c1_info_hash_bytes (fun x => x) [104, 116, 116, 112]
    { length := 5, name := [97, 98], piece_length := 3, pieces := List.replicate 20 128 }
    (by decide) (by decide) (by decide) (by decide)
    (by decide) (by decide) (by decide) (by decide) (by decide)
